import Mathlib

/-!
Verification of the one-to-many MongoDB synchronization script `up.py`.

The script is embedded shallowly:

* a database is an association list of named collections, in the order
  `list_collection_names` yields them;
* a collection is the list of documents a cursor over it yields, each
  document being its `_id` paired with an opaque payload;
* each fallible store call of the script (counts, finds, writes, deletes,
  drops) is guarded by a failure oracle recording which calls raise
  `PyMongoError`; `noFail` is the failure-free run.

Control flow is translated statement by statement from `up.py`: the upsert
phase catches errors per source collection; in the reconciliation phase the
inner handler around the two counts turns a count error into a `continue`,
while an error raised by the scan/delete loops escapes to the handler at the
bottom of `reconcile_deletions`, abandoning the remaining collection pairs.
-/

set_option autoImplicit false

namespace MongoSync

/-- Document identifier, the `_id` field of a document. -/
abbrev DocId := Nat

/-- Opaque document payload; the script copies it verbatim and never
interprets it. -/
abbrev Payload := Nat

/-- A document: its `_id` together with its payload. -/
abbrev Doc := DocId × Payload

/-- A collection: the sequence of documents a full `find` cursor yields. -/
abbrev Coll := List Doc

/-- A database: named collections, in listing order. -/
abbrev Db := List (String × Coll)

/-- Test for the reserved internal names the script always skips, the
translation of `coll_name.startswith("system.")`. -/
def reservedName (n : String) : Bool := "system.".toList.isPrefixOf n.toList

/-- Identifiers of the documents of a collection, in cursor order; the
translation of `find({}, {"_id": 1})`. -/
def Coll.ids (c : Coll) : List DocId := c.map Prod.fst

/-- Does the collection hold a document with this id?  This is what the
existence probe `count_documents({"_id": i}, limit=1) != 0` observes. -/
def Coll.hasId (c : Coll) (i : DocId) : Bool := c.any (fun d => d.1 == i)

/-- Payload stored at an id (first match in cursor order). -/
def Coll.contentAt (c : Coll) (i : DocId) : Option Payload :=
  (c.find? (fun d => d.1 == i)).map Prod.snd

/-- Translation of `replace_one({"_id": doc["_id"]}, doc, upsert=True)`:
replace the first document carrying this id, inserting the document when no
match exists. -/
def Coll.replaceOne : Coll → Doc → Coll
  | [], d => [d]
  | e :: rest, d => if e.1 == d.1 then d :: rest else e :: Coll.replaceOne rest d

/-- Translation of `delete_one({"_id": i})`: remove the first document
carrying this id. -/
def Coll.deleteOne : Coll → DocId → Coll
  | [], _ => []
  | e :: rest, i => if e.1 == i then rest else e :: Coll.deleteOne rest i

/-- Specification helper: the net effect on one collection of a deletion
loop, removing (first occurrence each) every listed id absent from `S`. -/
def deleteIds (S : List DocId) : Coll → List DocId → Coll
  | c, [] => c
  | c, i :: rest =>
    if S.contains i then deleteIds S c rest
    else deleteIds S (c.deleteOne i) rest

/-- Collection names of a database, in listing order. -/
def Db.collNames (db : Db) : List String := db.map Prod.fst

/-- Does a collection with this name exist in the database? -/
def Db.hasColl (db : Db) (n : String) : Bool := db.any (fun e => e.1 == n)

/-- Contents of the named collection; a name with no collection reads as
empty (a `find` on a missing collection yields no documents). -/
def Db.getColl (db : Db) (n : String) : Coll :=
  ((db.find? (fun e => e.1 == n)).map Prod.snd).getD []

/-- Store a collection value under a name: overwrite the existing entry, or
append a fresh one (Mongo creates a collection at its first write). -/
def Db.setColl (db : Db) (n : String) (c : Coll) : Db :=
  if db.hasColl n then db.map (fun e => if e.1 == n then (n, c) else e)
  else db ++ [(n, c)]

/-- Translation of `drop_collection(n)`. -/
def Db.dropColl (db : Db) (n : String) : Db := db.filter (fun e => e.1 != n)

/-- Translation of the set comprehensions of lines 89 and 90: the non-reserved
collection names of a database. -/
def nonReserved (db : Db) : List String :=
  db.collNames.filter (fun c => !(reservedName c))

/-- Specification helper: a copy of a database with the reserved internal
collections removed, used to state that reserved source collections are never
read. -/
def stripReserved (db : Db) : Db := db.filter (fun e => !(reservedName e.1))

/-- Iteration of `dst_cols - src_cols` (line 92): destination-only non-reserved
collection names, to be dropped. -/
def dropList (src dst : Db) : List String :=
  (nonReserved dst).filter (fun c => !((nonReserved src).contains c))

/-- Iteration of `dst_cols.intersection(src_cols)` (line 99): the collection
pairs present on both sides, to be reconciled document by document. -/
def pairList (src dst : Db) : List String :=
  (nonReserved dst).filter (fun c => (nonReserved src).contains c)

/-- Within-run well-formedness of a collection: ids are unique, as Mongo
guarantees for `_id`. -/
def Coll.WF (c : Coll) : Prop := c.ids.Nodup

instance : DecidablePred Coll.WF := fun c =>
  inferInstanceAs (Decidable c.ids.Nodup)

/-- Well-formedness of a database: collection names are unique and every
collection has unique ids. -/
def Db.WF (db : Db) : Prop := db.collNames.Nodup ∧ ∀ p ∈ db, p.2.WF

instance : DecidablePred Db.WF := fun db =>
  inferInstanceAs (Decidable (db.collNames.Nodup ∧ ∀ p ∈ db, p.2.WF))

/-- Branch test `src_count <= IN_MEMORY_ID_THRESHOLD`, inlined identically at
line 67 of `incremental_upsert` and line 113 of `reconcile_deletions`. -/
def useMaterialize (cnt thr : Nat) : Bool := cnt ≤ thr

/-- The two processing strategies the threshold test selects between. -/
inductive Strategy where
  | MATERIALIZE
  | STREAM
deriving DecidableEq

/-- StrategySelector: the decision the inlined threshold test encodes, as a
pure function of the source document count and the configured threshold. -/
def chooseStrategy (cnt thr : Nat) : Strategy :=
  if useMaterialize cnt thr then Strategy.MATERIALIZE else Strategy.STREAM

/-- Failure oracle: which store calls of one run raise `PyMongoError`.  One
field per fallible call site of `up.py`; `list_collection_names` is taken to
be reliable. -/
structure Failures where
  upSrcCount : String → Bool -- upsert: source count_documents, line 61
  upSrcFind : String → Bool -- upsert: source find cursor, lines 68 and 73
  upWrite : String → Nat → Bool -- upsert: replace_one of the document at this position, lines 70 and 74
  rcSrcCount : String → Bool -- reconcile: source count, line 104
  rcDstCount : String → Bool -- reconcile: destination count, line 105
  rcSrcFind : String → Bool -- reconcile: source id scan, line 114
  rcDstFind : String → Bool -- reconcile: destination id scan, lines 116 and 124
  rcExist : String → DocId → Bool -- reconcile: per-id existence check, line 125
  rcDelete : String → DocId → Bool -- reconcile: delete_one, lines 118 and 126
  rcDrop : String → Bool -- reconcile: drop_collection, line 95

/-- The failure-free run: no store call raises. -/
def noFail : Failures :=
  ⟨fun _ => false, fun _ => false, fun _ _ => false, fun _ => false, fun _ => false,
   fun _ => false, fun _ => false, fun _ _ => false, fun _ _ => false, fun _ => false⟩

/-! Concrete fixtures used by counterexamples and witnesses. -/

def srcOrders : Db := [("orders", [(1, 10), (2, 20), (3, 30)])]

def dstMixed : Db := [("orders", [(4, 40)]), ("legacy", [(7, 70)])]

def srcSysDoc : Db := [("system.idx", [(1, 5)])]

def dstSysDoc : Db := [("system.idx", [(7, 70)])]

def srcPairAB : Db := [("a", [(1, 10)]), ("b", [(9, 90)])]

def dstPairAB : Db := [("a", [(1, 10)]), ("b", [(4, 40)])]

def srcEmptyOrders : Db := [("orders", [])]

def dstTwoOrders : Db := [("orders", [(4, 40), (5, 50)])]

/-- A run whose only failing call is the destination id scan of pair `a`. -/
def failFindA : Failures := { noFail with rcDstFind := fun n => n == "a" }

/-- A run whose only failing call is the source count of pair `b`. -/
def failCountB : Failures := { noFail with rcSrcCount := fun n => n == "b" }

/-- A run whose only failing call is the upsert source read of collection `b`. -/
def failUpB : Failures := { noFail with upSrcFind := fun n => n == "b" }

/-- Write loop of `incremental_upsert`: `replace_one` for each source document
in cursor order.  A failing write raises, abandoning the remaining writes of
this collection; the per-collection handler then catches the error. -/
def upsertWrites (f : Failures) (n : String) : List Doc → Nat → Coll → Coll
  | [], _, c => c
  | d :: rest, i, c =>
    if f.upWrite n i then c
    else upsertWrites f n rest (i + 1) (c.replaceOne d)

/-- Body of the `for coll_name in src_db.list_collection_names()` loop of
`incremental_upsert` (lines 54 to 77): skip reserved names, count the source
collection, skip it when empty, then copy every source document by upsert,
materializing the cursor first when the count is within the threshold.  Any
`PyMongoError` of the body is caught, logged, and processing moves on.  The
destination collection comes into existence at the first successful write. -/
def upsertColl (f : Failures) (thr : Nat) (src : Db) (dst : Db) (n : String) : Db :=
  if reservedName n then dst
  else if f.upSrcCount n then dst
  else if (src.getColl n).length == 0 then dst
  else if useMaterialize (src.getColl n).length thr then
    if f.upSrcFind n then dst
    else if dst.hasColl n || !(f.upWrite n 0) then
      dst.setColl n (upsertWrites f n (src.getColl n) 0 (dst.getColl n))
    else dst
  else
    if f.upSrcFind n then dst
    else if dst.hasColl n || !(f.upWrite n 0) then
      dst.setColl n (upsertWrites f n (src.getColl n) 0 (dst.getColl n))
    else dst

/-- Step A of the script, `incremental_upsert` (lines 48 to 77), for one
destination database. -/
def incremental_upsert (f : Failures) (thr : Nat) (src : Db) (dst : Db) : Db :=
  src.collNames.foldl (fun d n => upsertColl f thr src d n) dst

/-- MATERIALIZE deletion loop of `reconcile_deletions` (lines 114 to 121):
delete every destination id absent from the in-memory source id set.  An
`error` result is an exception escaping to the handler at the bottom of
`reconcile_deletions`, carrying the destination state written so far. -/
def deleteLoopMat (f : Failures) (n : String) (sourceIds : List DocId) :
    Db → List DocId → Except Db Db
  | dst, [] => .ok dst
  | dst, i :: rest =>
    if sourceIds.contains i then deleteLoopMat f n sourceIds dst rest
    else if f.rcDelete n i then .error dst
    else deleteLoopMat f n sourceIds (dst.setColl n ((dst.getColl n).deleteOne i)) rest

/-- STREAM deletion loop of `reconcile_deletions` (lines 123 to 127): probe
source existence per destination id, deleting the ids with no match. -/
def deleteLoopStream (f : Failures) (n : String) (srcColl : Coll) :
    Db → List DocId → Except Db Db
  | dst, [] => .ok dst
  | dst, i :: rest =>
    if f.rcExist n i then .error dst
    else if srcColl.hasId i then deleteLoopStream f n srcColl dst rest
    else if f.rcDelete n i then .error dst
    else deleteLoopStream f n srcColl (dst.setColl n ((dst.getColl n).deleteOne i)) rest

/-- Document-level reconciliation of one collection pair (lines 99 to 128).
A count error is caught by the inner handler and turns into a `continue`,
leaving the destination untouched; errors of the scan/delete loops escape. -/
def reconcilePair (f : Failures) (thr : Nat) (src : Db) (dst : Db) (n : String) :
    Except Db Db :=
  if f.rcSrcCount n || f.rcDstCount n then .ok dst
  else if useMaterialize (src.getColl n).length thr then
    if f.rcSrcFind n then .error dst
    else if f.rcDstFind n then .error dst
    else deleteLoopMat f n (Coll.ids (src.getColl n)) dst (Coll.ids (dst.getColl n))
  else
    if f.rcDstFind n then .error dst
    else deleteLoopStream f n (src.getColl n) dst (Coll.ids (dst.getColl n))

/-- Loop over the collection pairs present in both source and destination.
An escaping exception ends the loop: the handler at the bottom of
`reconcile_deletions` logs it and the remaining pairs are abandoned. -/
def reconcilePairs (f : Failures) (thr : Nat) (src : Db) : Db → List String → Db
  | dst, [] => dst
  | dst, n :: rest =>
    match reconcilePair f thr src dst n with
    | .ok d => reconcilePairs f thr src d rest
    | .error d => d

/-- Collection-level loop of `reconcile_deletions` (lines 92 to 97): drop
every destination-only collection; a drop failure is caught per collection
and the loop continues. -/
def dropLoop (f : Failures) : Db → List String → Db
  | dst, [] => dst
  | dst, n :: rest =>
    if f.rcDrop n then dropLoop f dst rest
    else dropLoop f (dst.dropColl n) rest

/-- Step B of the script, `reconcile_deletions` (lines 82 to 131), for one
destination database: compute the non-reserved name sets of source and
destination, drop the destination-only collections, then reconcile the pairs
present on both sides. -/
def reconcile_deletions (f : Failures) (thr : Nat) (src : Db) (dst : Db) : Db :=
  reconcilePairs f thr src (dropLoop f dst (dropList src dst)) (pairList src dst)

/-- Destination state an exceptional or normal outcome leaves behind: the
handler at the bottom of `reconcile_deletions` only logs, so an escaped
exception and a normal return expose the same state. -/
def unwrapDb : Except Db Db → Db
  | .ok d => d
  | .error d => d

/-- One full pass over one destination: Step A then Step B, as `main` runs
them (lines 136 to 140). -/
def syncOne (f : Failures) (thr : Nat) (src : Db) (dst : Db) : Db :=
  reconcile_deletions f thr src (incremental_upsert f thr src dst)

/-- The whole of `main`: one full pass over every destination in order. -/
def mainSync (f : Failures) (thr : Nat) (src : Db) (dsts : List Db) : List Db :=
  dsts.map (fun dst => syncOne f thr src dst)

/-! ### Basic collection lemmas -/

theorem Coll.hasId_iff {c : Coll} {i : DocId} : c.hasId i = true ↔ i ∈ c.ids := by
  simp [Coll.hasId, Coll.ids, List.any_eq_true]

theorem Coll.hasId_eq_false_iff {c : Coll} {i : DocId} :
    c.hasId i = false ↔ i ∉ c.ids := by
  rw [← Coll.hasId_iff, Bool.not_eq_true, Bool.eq_false_iff, ne_eq, Bool.not_eq_true]

theorem Coll.contains_ids {c : Coll} {i : DocId} : c.ids.contains i = c.hasId i := by
  rcases h : c.hasId i with _ | _
  · exact Bool.eq_false_iff.mpr fun hc =>
      (Coll.hasId_eq_false_iff.mp h) (List.elem_iff.mp hc)
  · exact List.elem_iff.mpr (Coll.hasId_iff.mp h)

theorem Coll.contentAt_nil (i : DocId) : Coll.contentAt [] i = none := rfl

theorem Coll.contentAt_cons_self {e : Doc} {i : DocId} (h : e.1 = i) (c : Coll) :
    Coll.contentAt (e :: c) i = some e.2 := by
  unfold Coll.contentAt
  rw [List.find?_cons_of_pos _ (by simp [h])]
  rfl

theorem Coll.contentAt_cons_ne {e : Doc} {i : DocId} (h : e.1 ≠ i) (c : Coll) :
    Coll.contentAt (e :: c) i = Coll.contentAt c i := by
  unfold Coll.contentAt
  rw [List.find?_cons_of_neg _ (by simp [h])]

theorem Coll.contentAt_replaceOne_self (c : Coll) (d : Doc) :
    (c.replaceOne d).contentAt d.1 = some d.2 := by
  induction c with
  | nil => exact Coll.contentAt_cons_self rfl []
  | cons e rest ih =>
    by_cases h : e.1 = d.1
    · simp only [Coll.replaceOne, beq_iff_eq, h, if_true]
      exact Coll.contentAt_cons_self rfl rest
    · simp only [Coll.replaceOne, beq_iff_eq, h, if_false]
      rw [Coll.contentAt_cons_ne h]
      exact ih

theorem Coll.contentAt_replaceOne_ne (c : Coll) (d : Doc) {i : DocId} (h : i ≠ d.1) :
    (c.replaceOne d).contentAt i = Coll.contentAt c i := by
  induction c with
  | nil =>
    show Coll.contentAt [d] i = Coll.contentAt [] i
    rw [Coll.contentAt_cons_ne (fun hh => h hh.symm), Coll.contentAt_nil]
  | cons e rest ih =>
    by_cases he : e.1 = d.1
    · simp only [Coll.replaceOne, beq_iff_eq, he, if_true]
      rw [Coll.contentAt_cons_ne (fun hh => h hh.symm),
        Coll.contentAt_cons_ne (fun hh => h (he ▸ hh).symm)]
    · simp only [Coll.replaceOne, beq_iff_eq, he, if_false]
      by_cases hei : e.1 = i
      · rw [Coll.contentAt_cons_self hei, Coll.contentAt_cons_self hei]
      · rw [Coll.contentAt_cons_ne hei, Coll.contentAt_cons_ne hei]
        exact ih

theorem Coll.replaceOne_eq_self {c : Coll} {d : Doc} (h : c.contentAt d.1 = some d.2) :
    c.replaceOne d = c := by
  induction c with
  | nil => rw [Coll.contentAt_nil] at h; cases h
  | cons e rest ih =>
    by_cases he : e.1 = d.1
    · rw [Coll.contentAt_cons_self he rest] at h
      have hed : e = d := Prod.ext he (Option.some.inj h)
      simp [Coll.replaceOne, he, hed]
    · rw [Coll.contentAt_cons_ne he rest] at h
      simp [Coll.replaceOne, he, ih h]

theorem Coll.ids_replaceOne (c : Coll) (d : Doc) :
    (c.replaceOne d).ids = if c.hasId d.1 then c.ids else c.ids ++ [d.1] := by
  induction c with
  | nil => simp [Coll.replaceOne, Coll.ids, Coll.hasId]
  | cons e rest ih =>
    by_cases he : e.1 = d.1
    · simp [Coll.replaceOne, Coll.ids, Coll.hasId, he]
    · simp only [Coll.replaceOne, beq_iff_eq, he, if_false]
      have : Coll.hasId (e :: rest) d.1 = Coll.hasId rest d.1 := by
        simp [Coll.hasId, he]
      rw [this]
      rcases hr : Coll.hasId rest d.1 with _ | _
      · simp only [Coll.ids, List.map_cons] at ih ⊢
        rw [ih, hr]
        simp
      · simp only [Coll.ids, List.map_cons] at ih ⊢
        rw [ih, hr]
        simp

theorem Coll.hasId_replaceOne (c : Coll) (d : Doc) (i : DocId) :
    (c.replaceOne d).hasId i = true ↔ c.hasId i = true ∨ i = d.1 := by
  rw [Coll.hasId_iff, Coll.hasId_iff, Coll.ids_replaceOne]
  by_cases h : c.hasId d.1
  · rw [if_pos h]
    constructor
    · exact Or.inl
    · rintro (hi | rfl)
      · exact hi
      · exact Coll.hasId_iff.mp h
  · rw [if_neg h]
    simp [List.mem_append]

theorem Coll.WF_replaceOne {c : Coll} (h : c.WF) (d : Doc) : (c.replaceOne d).WF := by
  unfold Coll.WF at *
  rw [Coll.ids_replaceOne]
  rcases hc : c.hasId d.1 with _ | _
  · simpa [List.nodup_append] using ⟨h, Coll.hasId_eq_false_iff.mp hc⟩
  · simpa using h

theorem Coll.deleteOne_sublist (c : Coll) (i : DocId) : (c.deleteOne i).Sublist c := by
  induction c with
  | nil => simp [Coll.deleteOne]
  | cons e rest ih =>
    by_cases h : e.1 = i
    · simp only [Coll.deleteOne, beq_iff_eq, h, if_true]
      exact List.sublist_cons_self e rest
    · simp only [Coll.deleteOne, beq_iff_eq, h, if_false]
      exact ih.cons₂ e

theorem Coll.WF_deleteOne {c : Coll} (h : c.WF) (i : DocId) : (c.deleteOne i).WF :=
  h.sublist ((Coll.deleteOne_sublist c i).map Prod.fst)

theorem Coll.deleteOne_cons_ne {e : Doc} {i : DocId} (h : e.1 ≠ i) (c : Coll) :
    Coll.deleteOne (e :: c) i = e :: c.deleteOne i := by
  simp [Coll.deleteOne, h]

theorem deleteIds_cons_keep {S : List DocId} {d : Doc} (h : S.contains d.1 = true)
    (c : Coll) (l : List DocId) : deleteIds S (d :: c) l = d :: deleteIds S c l := by
  induction l generalizing c with
  | nil => rfl
  | cons i rest ih =>
    rcases hi : S.contains i with _ | _
    · have hne : d.1 ≠ i := fun he => by rw [he] at h; rw [h] at hi; cases hi
      simp only [deleteIds, hi, if_false, Coll.deleteOne_cons_ne hne]
      exact ih _
    · simp only [deleteIds, hi, if_true]
      exact ih _

theorem deleteIds_self (S : List DocId) (c : Coll) :
    deleteIds S c c.ids = c.filter (fun d => S.contains d.1) := by
  induction c with
  | nil => rfl
  | cons d rest ih =>
    have hids : Coll.ids (d :: rest) = d.1 :: Coll.ids rest := rfl
    rw [hids, List.filter_cons]
    rcases h : S.contains d.1 with _ | _
    · simp only [deleteIds, h, Bool.false_eq_true, if_false]
      have hdel : Coll.deleteOne (d :: rest) d.1 = rest := by
        simp [Coll.deleteOne]
      rw [hdel, ih]
    · simp only [deleteIds, h, if_true]
      rw [deleteIds_cons_keep h, ih]

/-! ### Basic database lemmas -/

theorem Db.hasColl_iff {db : Db} {n : String} :
    db.hasColl n = true ↔ n ∈ db.collNames := by
  simp [Db.hasColl, Db.collNames, List.any_eq_true]

theorem Db.hasColl_eq_false_iff {db : Db} {n : String} :
    db.hasColl n = false ↔ n ∉ db.collNames := by
  rw [← Db.hasColl_iff, Bool.not_eq_true, Bool.eq_false_iff, ne_eq, Bool.not_eq_true]

theorem Db.hasColl_cons {e : String × Coll} {n : String} (db : Db) :
    Db.hasColl (e :: db) n = (e.1 == n || db.hasColl n) := by
  simp [Db.hasColl]

theorem Db.getColl_cons_self {e : String × Coll} {n : String} (h : e.1 = n) (db : Db) :
    Db.getColl (e :: db) n = e.2 := by
  unfold Db.getColl
  rw [List.find?_cons_of_pos _ (by simp [h])]
  rfl

theorem Db.getColl_cons_ne {e : String × Coll} {n : String} (h : e.1 ≠ n) (db : Db) :
    Db.getColl (e :: db) n = db.getColl n := by
  unfold Db.getColl
  rw [List.find?_cons_of_neg _ (by simp [h])]

theorem Db.getColl_eq_nil {db : Db} {n : String} (h : db.hasColl n = false) :
    db.getColl n = [] := by
  induction db with
  | nil => rfl
  | cons e rest ih =>
    rw [Db.hasColl_cons] at h
    have h1 : e.1 ≠ n := by
      intro hh
      simp [hh] at h
    rw [Db.getColl_cons_ne h1]
    exact ih (Bool.or_eq_false_iff.mp h).2

theorem Db.getColl_mapSet_self (c : Coll) (n : String) :
    ∀ db : Db, db.hasColl n = true →
      Db.getColl (db.map (fun e => if e.1 == n then (n, c) else e)) n = c := by
  intro db
  induction db with
  | nil => intro h; cases h
  | cons e rest ih =>
    intro h
    rw [List.map_cons]
    by_cases he : e.1 = n
    · rw [if_pos (by simp [he])]
      exact Db.getColl_cons_self rfl _
    · rw [if_neg (by simp [he]), Db.getColl_cons_ne he]
      rw [Db.hasColl_cons] at h
      rcases Bool.or_eq_true_iff.mp h with h1 | h2
      · exact absurd (by simpa using h1) he
      · exact ih h2

theorem Db.getColl_mapSet_ne (c : Coll) {n m : String} (hmn : m ≠ n) :
    ∀ db : Db, Db.getColl (db.map (fun e => if e.1 == n then (n, c) else e)) m =
      db.getColl m := by
  intro db
  induction db with
  | nil => rfl
  | cons e rest ih =>
    rw [List.map_cons]
    by_cases he : e.1 = n
    · rw [if_pos (by simp [he])]
      rw [Db.getColl_cons_ne (fun hh => hmn hh.symm), Db.getColl_cons_ne (he ▸ fun hh => hmn hh.symm)]
      exact ih
    · rw [if_neg (by simp [he])]
      by_cases hem : e.1 = m
      · rw [Db.getColl_cons_self hem, Db.getColl_cons_self hem]
      · rw [Db.getColl_cons_ne hem, Db.getColl_cons_ne hem]
        exact ih

theorem Db.collNames_mapSet (c : Coll) (n : String) (db : Db) :
    Db.collNames (db.map (fun e => if e.1 == n then (n, c) else e)) = db.collNames := by
  unfold Db.collNames
  rw [List.map_map]
  apply List.map_congr_left
  intro e _
  by_cases he : e.1 = n
  · simp [he]
  · simp [he]

theorem Db.getColl_append_single_self (c : Coll) {n : String} :
    ∀ db : Db, db.hasColl n = false → Db.getColl (db ++ [(n, c)]) n = c := by
  intro db
  induction db with
  | nil => intro _; exact Db.getColl_cons_self rfl []
  | cons e rest ih =>
    intro h
    rw [Db.hasColl_cons] at h
    have h1 : e.1 ≠ n := by
      intro hh
      simp [hh] at h
    rw [List.cons_append, Db.getColl_cons_ne h1]
    exact ih (Bool.or_eq_false_iff.mp h).2

theorem Db.getColl_append_single_ne (c : Coll) {n m : String} (hmn : m ≠ n) :
    ∀ db : Db, Db.getColl (db ++ [(n, c)]) m = db.getColl m := by
  intro db
  induction db with
  | nil =>
    show Db.getColl [(n, c)] m = Db.getColl [] m
    rw [Db.getColl_cons_ne (fun hh => hmn hh.symm)]
  | cons e rest ih =>
    rw [List.cons_append]
    by_cases hem : e.1 = m
    · rw [Db.getColl_cons_self hem, Db.getColl_cons_self hem]
    · rw [Db.getColl_cons_ne hem, Db.getColl_cons_ne hem]
      exact ih

theorem Db.getColl_setColl_self (db : Db) (n : String) (c : Coll) :
    (db.setColl n c).getColl n = c := by
  unfold Db.setColl
  rcases h : db.hasColl n with _ | _
  · rw [if_neg (by simp [h])]
    exact Db.getColl_append_single_self c db h
  · rw [if_pos (by simp [h])]
    exact Db.getColl_mapSet_self c n db h

theorem Db.getColl_setColl_ne (db : Db) {n m : String} (c : Coll) (hmn : m ≠ n) :
    (db.setColl n c).getColl m = db.getColl m := by
  unfold Db.setColl
  rcases h : db.hasColl n with _ | _
  · rw [if_neg (by simp [h])]
    exact Db.getColl_append_single_ne c hmn db
  · rw [if_pos (by simp [h])]
    exact Db.getColl_mapSet_ne c hmn db

theorem Db.collNames_setColl_of_has {db : Db} {n : String} (c : Coll)
    (h : db.hasColl n = true) : (db.setColl n c).collNames = db.collNames := by
  unfold Db.setColl
  rw [if_pos (by simp [h])]
  exact Db.collNames_mapSet c n db

theorem Db.collNames_setColl_of_not {db : Db} {n : String} (c : Coll)
    (h : db.hasColl n = false) :
    (db.setColl n c).collNames = db.collNames ++ [n] := by
  unfold Db.setColl
  rw [if_neg (by simp [h])]
  unfold Db.collNames
  rw [List.map_append]
  rfl

theorem Db.hasColl_setColl_self (db : Db) (n : String) (c : Coll) :
    (db.setColl n c).hasColl n = true := by
  rcases h : db.hasColl n with _ | _
  · rw [Db.hasColl_iff, Db.collNames_setColl_of_not c h]
    simp
  · rw [Db.hasColl_iff, Db.collNames_setColl_of_has c h]
    exact Db.hasColl_iff.mp h

theorem Db.hasColl_congr {d1 d2 : Db} (h : d1.collNames = d2.collNames) (m : String) :
    d1.hasColl m = d2.hasColl m := by
  rcases h1 : d1.hasColl m with _ | _ <;> rcases h2 : d2.hasColl m with _ | _
  · rfl
  · exact absurd (h ▸ Db.hasColl_iff.mp h2) (Db.hasColl_eq_false_iff.mp h1)
  · exact absurd (h ▸ Db.hasColl_iff.mp h1) (Db.hasColl_eq_false_iff.mp h2)
  · rfl

theorem Db.hasColl_setColl_ne (db : Db) {n m : String} (c : Coll) (hmn : m ≠ n) :
    (db.setColl n c).hasColl m = db.hasColl m := by
  rcases h : db.hasColl n with _ | _
  · rcases hm : db.hasColl m with _ | _
    · rw [Bool.eq_false_iff]
      intro hc
      rw [Db.hasColl_iff, Db.collNames_setColl_of_not c h, List.mem_append] at hc
      rcases hc with hc | hc
      · exact (Db.hasColl_eq_false_iff.mp hm) hc
      · simp at hc
        exact hmn hc
    · rw [Db.hasColl_iff, Db.collNames_setColl_of_not c h, List.mem_append]
      exact Or.inl (Db.hasColl_iff.mp hm)
  · exact Db.hasColl_congr (Db.collNames_setColl_of_has c h) m

theorem Db.mapSet_id (c : Coll) {n : String} {db : Db} (h : n ∉ db.collNames) :
    db.map (fun e => if e.1 == n then (n, c) else e) = db := by
  have : ∀ e ∈ db, (if e.1 == n then (n, c) else e) = e := by
    intro e he
    rw [if_neg]
    simp only [beq_iff_eq]
    intro hh
    exact h (by rw [← hh]; exact List.mem_map_of_mem Prod.fst he)
  rw [List.map_congr_left this]
  exact List.map_id db

theorem Db.setColl_getColl_self {n : String} :
    ∀ db : Db, db.collNames.Nodup → db.hasColl n = true →
      db.setColl n (db.getColl n) = db := by
  intro db
  induction db with
  | nil => intro _ h; cases h
  | cons e rest ih =>
    intro hnd h
    have hcons : Db.collNames (e :: rest) = e.1 :: Db.collNames rest := rfl
    rw [hcons] at hnd
    unfold Db.setColl
    rw [if_pos h]
    rw [List.map_cons]
    by_cases he : e.1 = n
    · rw [if_pos (by simp [he]), Db.getColl_cons_self he]
      have hnotin : n ∉ Db.collNames rest := he ▸ (List.nodup_cons.mp hnd).1
      have hed : ((n : String), e.2) = e := by
        rw [← he]
      rw [Db.mapSet_id e.2 hnotin, hed]
    · rw [if_neg (by simp [he]), Db.getColl_cons_ne he]
      have hr : Db.hasColl rest n = true := by
        rw [Db.hasColl_cons] at h
        rcases Bool.or_eq_true_iff.mp h with h1 | h2
        · exact absurd (by simpa using h1) he
        · exact h2
      have hih := ih (List.nodup_cons.mp hnd).2 hr
      unfold Db.setColl at hih
      rw [if_pos hr] at hih
      rw [hih]

theorem Db.dropColl_cons (e : String × Coll) (db : Db) (n : String) :
    Db.dropColl (e :: db) n = if e.1 != n then e :: db.dropColl n else db.dropColl n := by
  unfold Db.dropColl
  rw [List.filter_cons]

theorem Db.collNames_dropColl (db : Db) (n : String) :
    (db.dropColl n).collNames = db.collNames.filter (fun m => m != n) := by
  induction db with
  | nil => rfl
  | cons e rest ih =>
    rw [Db.dropColl_cons]
    have hcons : Db.collNames (e :: rest) = e.1 :: Db.collNames rest := rfl
    rw [hcons, List.filter_cons]
    rcases he : (e.1 != n) with _ | _
    · simp only [Bool.false_eq_true, if_false]
      exact ih
    · simp only [if_true]
      have hcons2 : Db.collNames (e :: Db.dropColl rest n) =
          e.1 :: Db.collNames (Db.dropColl rest n) := rfl
      rw [hcons2, ih]

theorem Db.hasColl_dropColl_self (db : Db) (n : String) :
    (db.dropColl n).hasColl n = false := by
  rw [Db.hasColl_eq_false_iff, Db.collNames_dropColl]
  intro h
  have := (List.mem_filter.mp h).2
  simp at this

theorem Db.hasColl_dropColl_ne (db : Db) {n m : String} (hmn : m ≠ n) :
    (db.dropColl n).hasColl m = db.hasColl m := by
  rcases hm : db.hasColl m with _ | _
  · rw [Bool.eq_false_iff]
    intro hc
    rw [Db.hasColl_iff, Db.collNames_dropColl] at hc
    exact (Db.hasColl_eq_false_iff.mp hm) (List.mem_filter.mp hc).1
  · rw [Db.hasColl_iff, Db.collNames_dropColl, List.mem_filter]
    exact ⟨Db.hasColl_iff.mp hm, by simp [hmn]⟩

theorem Db.getColl_dropColl_ne {n m : String} (hmn : m ≠ n) :
    ∀ db : Db, (db.dropColl n).getColl m = db.getColl m := by
  intro db
  induction db with
  | nil => rfl
  | cons e rest ih =>
    rw [Db.dropColl_cons]
    rcases he : (e.1 != n) with _ | _
    · have h1 : e.1 = n := by simpa using he
      simp only [Bool.false_eq_true, if_false]
      rw [Db.getColl_cons_ne (h1 ▸ fun hh => hmn hh.symm)]
      exact ih
    · simp only [if_true]
      by_cases hem : e.1 = m
      · rw [Db.getColl_cons_self hem, Db.getColl_cons_self hem]
      · rw [Db.getColl_cons_ne hem, Db.getColl_cons_ne hem]
        exact ih

theorem Db.dropColl_sublist (db : Db) (n : String) : (db.dropColl n).Sublist db :=
  List.filter_sublist db

theorem Db.WF_getColl {db : Db} (h : db.WF) (n : String) : (db.getColl n).WF := by
  unfold Db.getColl
  rcases hf : db.find? (fun e => e.1 == n) with _ | e
  · rw [hf]
    exact List.nodup_nil
  · rw [hf]
    exact h.2 e (List.mem_of_find?_eq_some hf)

theorem Db.WF_setColl {db : Db} (h : db.WF) {n : String} {c : Coll} (hc : c.WF) :
    (db.setColl n c).WF := by
  constructor
  · rcases hh : db.hasColl n with _ | _
    · rw [Db.collNames_setColl_of_not c hh]
      simp only [List.nodup_append, List.nodup_cons, List.not_mem_nil, not_false_iff,
        List.nodup_nil, and_true, true_and]
      constructor
      · exact h.1
      · intro a ha
        simp only [List.mem_singleton]
        intro hean
        exact (Db.hasColl_eq_false_iff.mp hh) (hean ▸ ha)
    · rw [Db.collNames_setColl_of_has c hh]
      exact h.1
  · intro p hp
    unfold Db.setColl at hp
    rcases hh : db.hasColl n with _ | _
    · rw [if_neg (by simp [hh])] at hp
      rcases List.mem_append.mp hp with hp | hp
      · exact h.2 p hp
      · rw [List.mem_singleton] at hp
        rw [hp]
        exact hc
    · rw [if_pos (by simp [hh])] at hp
      obtain ⟨q, hq, hpq⟩ := List.mem_map.mp hp
      by_cases hqn : q.1 = n
      · rw [if_pos (by simp [hqn])] at hpq
        rw [← hpq]
        exact hc
      · rw [if_neg (by simp [hqn])] at hpq
        rw [← hpq]
        exact h.2 q hq

theorem Db.WF_dropColl {db : Db} (h : db.WF) (n : String) : (db.dropColl n).WF := by
  constructor
  · rw [Db.collNames_dropColl]
    exact h.1.sublist (List.filter_sublist _)
  · intro p hp
    exact h.2 p (List.mem_filter.mp hp).1

/-! ### Write-loop lemmas -/

theorem upsertWrites_noWriteFail {f : Failures} {n : String}
    (hw : ∀ i, f.upWrite n i = false) :
    ∀ (docs : Coll) (i : Nat) (c : Coll),
      upsertWrites f n docs i c = docs.foldl Coll.replaceOne c := by
  intro docs
  induction docs with
  | nil => intro i c; rfl
  | cons d rest ih =>
    intro i c
    simp only [upsertWrites, hw i, Bool.false_eq_true, if_false, List.foldl_cons]
    exact ih (i + 1) _

theorem upsertWrites_WF {f : Failures} {n : String} :
    ∀ (docs : Coll) (i : Nat) {c : Coll}, c.WF → (upsertWrites f n docs i c).WF := by
  intro docs
  induction docs with
  | nil => intro i c h; exact h
  | cons d rest ih =>
    intro i c h
    simp only [upsertWrites]
    rcases hf : f.upWrite n i with _ | _
    · simp only [Bool.false_eq_true, if_false]
      exact ih (i + 1) (Coll.WF_replaceOne h d)
    · simp only [if_true]
      exact h

theorem upsertWrites_hasId_mono {f : Failures} {n : String} {j : DocId} :
    ∀ (docs : Coll) (i : Nat) {c : Coll}, c.hasId j = true →
      (upsertWrites f n docs i c).hasId j = true := by
  intro docs
  induction docs with
  | nil => intro i c h; exact h
  | cons d rest ih =>
    intro i c h
    simp only [upsertWrites]
    rcases hf : f.upWrite n i with _ | _
    · simp only [Bool.false_eq_true, if_false]
      exact ih (i + 1) ((Coll.hasId_replaceOne c d j).mpr (Or.inl h))
    · simp only [if_true]
      exact h

theorem foldl_replaceOne_contentAt_ne {i : DocId} :
    ∀ (docs : Coll) (c : Coll), (∀ d ∈ docs, d.1 ≠ i) →
      (docs.foldl Coll.replaceOne c).contentAt i = c.contentAt i := by
  intro docs
  induction docs with
  | nil => intro c _; rfl
  | cons d rest ih =>
    intro c h
    rw [List.foldl_cons, ih _ (fun e he => h e (List.mem_cons_of_mem d he)),
      Coll.contentAt_replaceOne_ne c d (fun hh => h d (List.mem_cons_self d rest) hh.symm)]

theorem foldl_replaceOne_contentAt_mem :
    ∀ (docs : Coll) (c : Coll) {i : DocId} {v : Payload},
      (Coll.ids docs).Nodup → (i, v) ∈ docs →
      (docs.foldl Coll.replaceOne c).contentAt i = some v := by
  intro docs
  induction docs with
  | nil => intro c i v _ h; cases h
  | cons d rest ih =>
    intro c i v hnd hm
    have hnd' : (d.1 :: Coll.ids rest).Nodup := hnd
    rcases List.mem_cons.mp hm with hm | hm
    · rw [List.foldl_cons]
      have hni : ∀ e ∈ rest, e.1 ≠ i := by
        intro e he hei
        apply (List.nodup_cons.mp hnd').1
        have hmem : e.1 ∈ Coll.ids rest := List.mem_map_of_mem Prod.fst he
        rw [hei] at hmem
        rw [← hm]
        exact hmem
      rw [foldl_replaceOne_contentAt_ne rest _ hni, ← hm]
      exact Coll.contentAt_replaceOne_self c (i, v)
    · exact ih _ (List.nodup_cons.mp hnd').2 hm

theorem foldl_replaceOne_hasId_mono {j : DocId} :
    ∀ (docs : Coll) {c : Coll}, c.hasId j = true →
      (docs.foldl Coll.replaceOne c).hasId j = true := by
  intro docs
  induction docs with
  | nil => intro c h; exact h
  | cons d rest ih =>
    intro c h
    rw [List.foldl_cons]
    exact ih ((Coll.hasId_replaceOne c d j).mpr (Or.inl h))

theorem foldl_replaceOne_hasId_docs :
    ∀ (docs : Coll) (c : Coll) {d : Doc}, d ∈ docs →
      (docs.foldl Coll.replaceOne c).hasId d.1 = true := by
  intro docs
  induction docs with
  | nil => intro c d h; cases h
  | cons e rest ih =>
    intro c d h
    rcases List.mem_cons.mp h with h | h
    · rw [List.foldl_cons]
      exact foldl_replaceOne_hasId_mono rest
        ((Coll.hasId_replaceOne c e d.1).mpr (Or.inr (by rw [h])))
    · rw [List.foldl_cons]
      exact ih _ h

theorem foldl_replaceOne_hasId_sub :
    ∀ (docs : Coll) (c : Coll) {i : DocId},
      (docs.foldl Coll.replaceOne c).hasId i = true →
      c.hasId i = true ∨ i ∈ Coll.ids docs := by
  intro docs
  induction docs with
  | nil => intro c i h; exact Or.inl h
  | cons d rest ih =>
    intro c i h
    rw [List.foldl_cons] at h
    rcases ih _ h with h1 | h1
    · rcases (Coll.hasId_replaceOne c d i).mp h1 with h2 | h2
      · exact Or.inl h2
      · exact Or.inr (by rw [h2]; exact List.mem_map_of_mem Prod.fst (List.mem_cons_self d rest))
    · exact Or.inr (List.mem_cons_of_mem d.1 h1)

theorem foldl_replaceOne_WF :
    ∀ (docs : Coll) {c : Coll}, c.WF → (docs.foldl Coll.replaceOne c).WF := by
  intro docs
  induction docs with
  | nil => intro c h; exact h
  | cons d rest ih =>
    intro c h
    rw [List.foldl_cons]
    exact ih (Coll.WF_replaceOne h d)

theorem foldl_replaceOne_id :
    ∀ (docs : Coll) {c : Coll}, (∀ d ∈ docs, c.contentAt d.1 = some d.2) →
      docs.foldl Coll.replaceOne c = c := by
  intro docs
  induction docs with
  | nil => intro c _; rfl
  | cons d rest ih =>
    intro c h
    rw [List.foldl_cons, Coll.replaceOne_eq_self (h d (List.mem_cons_self d rest))]
    exact ih (fun e he => h e (List.mem_cons_of_mem d he))

/-! ### Upsert-phase lemmas -/

theorem upsertColl_reserved {n : String} (h : reservedName n = true)
    (f : Failures) (thr : Nat) (src dst : Db) : upsertColl f thr src dst n = dst := by
  unfold upsertColl
  rw [if_pos h]

theorem upsertColl_shape (f : Failures) (thr : Nat) (src dst : Db) (n : String) :
    upsertColl f thr src dst n = dst ∨
      (upsertColl f thr src dst n =
        dst.setColl n (upsertWrites f n (src.getColl n) 0 (dst.getColl n)) ∧
        reservedName n = false ∧ (src.getColl n).length ≠ 0) := by
  unfold upsertColl
  by_cases hres : reservedName n = true
  · rw [if_pos hres]
    exact Or.inl rfl
  · have hres' : reservedName n = false := Bool.eq_false_iff.mpr hres
    rw [if_neg hres]
    by_cases hc : f.upSrcCount n = true
    · rw [if_pos hc]
      exact Or.inl rfl
    · rw [if_neg hc]
      by_cases hlen : ((src.getColl n).length == 0) = true
      · rw [if_pos hlen]
        exact Or.inl rfl
      · rw [if_neg hlen]
        have hlen' : (src.getColl n).length ≠ 0 := by simpa using hlen
        split
        · by_cases hf : f.upSrcFind n = true
          · rw [if_pos hf]
            exact Or.inl rfl
          · rw [if_neg hf]
            split
            · exact Or.inr ⟨rfl, hres', hlen'⟩
            · exact Or.inl rfl
        · by_cases hf : f.upSrcFind n = true
          · rw [if_pos hf]
            exact Or.inl rfl
          · rw [if_neg hf]
            split
            · exact Or.inr ⟨rfl, hres', hlen'⟩
            · exact Or.inl rfl

theorem upsertColl_getColl_ne {m n : String} (h : m ≠ n)
    (f : Failures) (thr : Nat) (src dst : Db) :
    (upsertColl f thr src dst n).getColl m = dst.getColl m := by
  rcases upsertColl_shape f thr src dst n with hs | ⟨hs, _, _⟩
  · rw [hs]
  · rw [hs]
    exact Db.getColl_setColl_ne dst _ h

theorem upsertColl_hasColl_ne {m n : String} (h : m ≠ n)
    (f : Failures) (thr : Nat) (src dst : Db) :
    (upsertColl f thr src dst n).hasColl m = dst.hasColl m := by
  rcases upsertColl_shape f thr src dst n with hs | ⟨hs, _, _⟩
  · rw [hs]
  · rw [hs]
    exact Db.hasColl_setColl_ne dst _ h

theorem upsertColl_hasColl_mono {m : String} {dst : Db} (h : dst.hasColl m = true)
    (f : Failures) (thr : Nat) (src : Db) (n : String) :
    (upsertColl f thr src dst n).hasColl m = true := by
  rcases upsertColl_shape f thr src dst n with hs | ⟨hs, _, _⟩
  · rw [hs]; exact h
  · rw [hs]
    by_cases hmn : m = n
    · rw [hmn]
      exact Db.hasColl_setColl_self dst n _
    · rw [Db.hasColl_setColl_ne dst _ hmn]
      exact h

theorem upsertColl_WF {dst : Db} (h : dst.WF)
    (f : Failures) (thr : Nat) (src : Db) (n : String) :
    (upsertColl f thr src dst n).WF := by
  rcases upsertColl_shape f thr src dst n with hs | ⟨hs, _, _⟩
  · rw [hs]; exact h
  · rw [hs]
    exact Db.WF_setColl h (upsertWrites_WF _ 0 (Db.WF_getColl h n))

theorem upsertColl_flagsFree {f : Failures} {n : String}
    (h1 : f.upSrcCount n = false) (h2 : f.upSrcFind n = false)
    (h3 : ∀ i, f.upWrite n i = false) (hres : reservedName n = false)
    (thr : Nat) (src dst : Db) :
    upsertColl f thr src dst n =
      if (src.getColl n).length == 0 then dst
      else dst.setColl n ((src.getColl n).foldl Coll.replaceOne (dst.getColl n)) := by
  unfold upsertColl
  rw [if_neg (by simp [hres]), if_neg (by simp [h1])]
  rw [upsertWrites_noWriteFail h3]
  simp only [h2, Bool.false_eq_true, if_false, h3 0, Bool.not_false, Bool.or_true, if_true]
  split
  · rfl
  · rw [ite_self]

/-- One step of the upsert loop at a name other than `m` does not affect the
collection at `m`; a step at a reserved `m` does nothing at all. -/
theorem foldUpsert_frame (f : Failures) (thr : Nat) (src : Db) {m : String} :
    ∀ (L : List String) (d : Db), m ∉ L →
      (L.foldl (fun d n => upsertColl f thr src d n) d).getColl m = d.getColl m ∧
      (L.foldl (fun d n => upsertColl f thr src d n) d).hasColl m = d.hasColl m := by
  intro L
  induction L with
  | nil => intro d _; exact ⟨rfl, rfl⟩
  | cons n rest ih =>
    intro d hm
    rw [List.foldl_cons]
    have hmn : m ≠ n := fun hh => hm (hh ▸ List.mem_cons_self n rest)
    obtain ⟨hg, hh⟩ := ih (upsertColl f thr src d n) (fun hh => hm (List.mem_cons_of_mem n hh))
    exact ⟨hg.trans (upsertColl_getColl_ne hmn f thr src d),
      hh.trans (upsertColl_hasColl_ne hmn f thr src d)⟩

theorem foldUpsert_reserved (f : Failures) (thr : Nat) (src : Db) {m : String}
    (hres : reservedName m = true) :
    ∀ (L : List String) (d : Db),
      (L.foldl (fun d n => upsertColl f thr src d n) d).getColl m = d.getColl m ∧
      (L.foldl (fun d n => upsertColl f thr src d n) d).hasColl m = d.hasColl m := by
  intro L
  induction L with
  | nil => intro d; exact ⟨rfl, rfl⟩
  | cons n rest ih =>
    intro d
    rw [List.foldl_cons]
    by_cases hmn : m = n
    · rw [← hmn, upsertColl_reserved hres f thr src d]
      exact ih d
    · obtain ⟨hg, hh⟩ := ih (upsertColl f thr src d n)
      exact ⟨hg.trans (upsertColl_getColl_ne hmn f thr src d),
        hh.trans (upsertColl_hasColl_ne hmn f thr src d)⟩

theorem foldUpsert_WF (f : Failures) (thr : Nat) (src : Db) :
    ∀ (L : List String) {d : Db}, d.WF →
      (L.foldl (fun d n => upsertColl f thr src d n) d).WF := by
  intro L
  induction L with
  | nil => intro d h; exact h
  | cons n rest ih =>
    intro d h
    rw [List.foldl_cons]
    exact ih (upsertColl_WF h f thr src n)

theorem foldUpsert_hasColl_mono (f : Failures) (thr : Nat) (src : Db) {m : String} :
    ∀ (L : List String) {d : Db}, d.hasColl m = true →
      (L.foldl (fun d n => upsertColl f thr src d n) d).hasColl m = true := by
  intro L
  induction L with
  | nil => intro d h; exact h
  | cons n rest ih =>
    intro d h
    rw [List.foldl_cons]
    exact ih (upsertColl_hasColl_mono h f thr src n)

theorem incremental_upsert_WF {dst : Db} (h : dst.WF)
    (f : Failures) (thr : Nat) (src : Db) : (incremental_upsert f thr src dst).WF :=
  foldUpsert_WF f thr src src.collNames h

theorem incremental_upsert_reserved (f : Failures) (thr : Nat) (src dst : Db)
    {n : String} (h : reservedName n = true) :
    (incremental_upsert f thr src dst).getColl n = dst.getColl n ∧
    (incremental_upsert f thr src dst).hasColl n = dst.hasColl n :=
  foldUpsert_reserved f thr src h src.collNames dst

theorem Db.hasColl_of_getColl_ne_nil {db : Db} {n : String} (h : db.getColl n ≠ []) :
    db.hasColl n = true := by
  rcases hh : db.hasColl n with _ | _
  · exact absurd (Db.getColl_eq_nil hh) h
  · rfl

theorem upsertColl_hasId_mono {m : String} {i : DocId} {dst : Db}
    (h : (dst.getColl m).hasId i = true)
    (f : Failures) (thr : Nat) (src : Db) (n : String) :
    ((upsertColl f thr src dst n).getColl m).hasId i = true := by
  rcases upsertColl_shape f thr src dst n with hs | ⟨hs, _, _⟩
  · rw [hs]; exact h
  · rw [hs]
    by_cases hmn : m = n
    · rw [hmn, Db.getColl_setColl_self]
      rw [hmn] at h
      exact upsertWrites_hasId_mono _ 0 h
    · rw [Db.getColl_setColl_ne dst _ hmn]
      exact h

theorem foldUpsert_hasId_mono (f : Failures) (thr : Nat) (src : Db) {m : String}
    {i : DocId} :
    ∀ (L : List String) {d : Db}, ((d.getColl m).hasId i = true) →
      (((L.foldl (fun d n => upsertColl f thr src d n) d).getColl m).hasId i = true) := by
  intro L
  induction L with
  | nil => intro d h; exact h
  | cons n rest ih =>
    intro d h
    rw [List.foldl_cons]
    exact ih (upsertColl_hasId_mono h f thr src n)

/-- What the upsert phase leaves in the collection named `n`, when no store
call of this collection fails: reserved or empty source collections are left
alone, any other collection receives every source document by upsert. -/
theorem incremental_upsert_getColl {f : Failures} {n : String}
    (h1 : f.upSrcCount n = false) (h2 : f.upSrcFind n = false)
    (h3 : ∀ i, f.upWrite n i = false) (thr : Nat) {src : Db}
    (hsrc : src.collNames.Nodup) (dst : Db) :
    (incremental_upsert f thr src dst).getColl n =
      if reservedName n = true ∨ (src.getColl n).length = 0 then dst.getColl n
      else (src.getColl n).foldl Coll.replaceOne (dst.getColl n) := by
  by_cases hres : reservedName n = true
  · rw [if_pos (Or.inl hres)]
    exact (incremental_upsert_reserved f thr src dst hres).1
  · have hres' : reservedName n = false := Bool.eq_false_iff.mpr hres
    by_cases hmem : n ∈ src.collNames
    · obtain ⟨L1, L2, hL⟩ := List.append_of_mem hmem
      have hnd := hsrc
      rw [hL] at hnd
      rw [List.nodup_append] at hnd
      have hn1 : n ∉ L1 := fun hin => hnd.2.2 hin (List.mem_cons_self n L2)
      have hn2 : n ∉ L2 := (List.nodup_cons.mp hnd.2.1).1
      unfold incremental_upsert
      rw [hL, List.foldl_append, List.foldl_cons]
      have hfr1 := foldUpsert_frame f thr src L1 dst hn1
      rw [upsertColl_flagsFree h1 h2 h3 hres' thr src]
      by_cases hlen : (src.getColl n).length = 0
      · rw [if_pos (by simpa using hlen), if_pos (Or.inr hlen)]
        exact ((foldUpsert_frame f thr src L2 _ hn2).1).trans hfr1.1
      · rw [if_neg (by simpa using hlen), if_neg (by
          rintro (hc | hc)
          · exact hres hc
          · exact hlen hc)]
        rw [(foldUpsert_frame f thr src L2 _ hn2).1, Db.getColl_setColl_self, hfr1.1]
    · have hnil : src.getColl n = [] :=
        Db.getColl_eq_nil (Db.hasColl_eq_false_iff.mpr hmem)
      rw [if_pos (Or.inr (by rw [hnil]; rfl))]
      exact (foldUpsert_frame f thr src src.collNames dst hmem).1

/-- The upsert phase creates the destination collection for any non-reserved
non-empty source collection (when its store calls do not fail). -/
theorem incremental_upsert_hasColl_pos {f : Failures} {n : String}
    (h1 : f.upSrcCount n = false) (h2 : f.upSrcFind n = false)
    (h3 : ∀ i, f.upWrite n i = false) (thr : Nat) {src : Db}
    (hsrc : src.collNames.Nodup) (dst : Db) (hres : reservedName n = false)
    (hlen : (src.getColl n).length ≠ 0) :
    (incremental_upsert f thr src dst).hasColl n = true := by
  have hmem : n ∈ src.collNames := by
    rw [← Db.hasColl_iff]
    exact Db.hasColl_of_getColl_ne_nil (fun hh => hlen (by rw [hh]; rfl))
  obtain ⟨L1, L2, hL⟩ := List.append_of_mem hmem
  have hnd := hsrc
  rw [hL] at hnd
  rw [List.nodup_append] at hnd
  have hn2 : n ∉ L2 := (List.nodup_cons.mp hnd.2.1).1
  unfold incremental_upsert
  rw [hL, List.foldl_append, List.foldl_cons]
  rw [upsertColl_flagsFree h1 h2 h3 hres thr src]
  rw [if_neg (by simpa using hlen)]
  rw [(foldUpsert_frame f thr src L2 _ hn2).2]
  exact Db.hasColl_setColl_self _ n _

/-- The upsert phase leaves collection existence alone at names it does not
copy into: reserved names and names of empty source collections. -/
theorem incremental_upsert_hasColl_eq {f : Failures} {n : String}
    (h1 : f.upSrcCount n = false) (h2 : f.upSrcFind n = false)
    (h3 : ∀ i, f.upWrite n i = false) (thr : Nat) {src : Db}
    (hsrc : src.collNames.Nodup) (dst : Db)
    (hskip : reservedName n = true ∨ (src.getColl n).length = 0) :
    (incremental_upsert f thr src dst).hasColl n = dst.hasColl n := by
  rcases hskip with hres | hlen
  · exact (incremental_upsert_reserved f thr src dst hres).2
  · by_cases hmem : n ∈ src.collNames
    · obtain ⟨L1, L2, hL⟩ := List.append_of_mem hmem
      have hnd := hsrc
      rw [hL] at hnd
      rw [List.nodup_append] at hnd
      have hn1 : n ∉ L1 := fun hin => hnd.2.2 hin (List.mem_cons_self n L2)
      have hn2 : n ∉ L2 := (List.nodup_cons.mp hnd.2.1).1
      unfold incremental_upsert
      rw [hL, List.foldl_append, List.foldl_cons]
      by_cases hres : reservedName n = true
      · rw [upsertColl_reserved hres]
        exact ((foldUpsert_frame f thr src L2 _ hn2).2).trans
          (foldUpsert_frame f thr src L1 dst hn1).2
      · rw [upsertColl_flagsFree h1 h2 h3 (Bool.eq_false_iff.mpr hres) thr src]
        rw [if_pos (by simpa using hlen)]
        exact ((foldUpsert_frame f thr src L2 _ hn2).2).trans
          (foldUpsert_frame f thr src L1 dst hn1).2
    · exact (foldUpsert_frame f thr src src.collNames dst hmem).2

/-! ### Reconciliation-phase lemmas -/

theorem Db.hasColl_dropColl_mono {db : Db} {n m : String}
    (h : (db.dropColl n).hasColl m = true) : db.hasColl m = true := by
  by_cases hmn : m = n
  · rw [hmn] at h
    rw [Db.hasColl_dropColl_self db n] at h
    cases h
  · rw [Db.hasColl_dropColl_ne db hmn] at h
    exact h

theorem dropLoop_frame {f : Failures} {m : String} :
    ∀ (L : List String) (dst : Db), m ∉ L →
      (dropLoop f dst L).getColl m = dst.getColl m ∧
      (dropLoop f dst L).hasColl m = dst.hasColl m := by
  intro L
  induction L with
  | nil => intro dst _; exact ⟨rfl, rfl⟩
  | cons n rest ih =>
    intro dst hm
    have hmn : m ≠ n := fun hh => hm (hh ▸ List.mem_cons_self n rest)
    have hmr : m ∉ rest := fun hh => hm (List.mem_cons_of_mem n hh)
    simp only [dropLoop]
    rcases hdrop : f.rcDrop n with _ | _
    · simp only [Bool.false_eq_true, if_false]
      obtain ⟨hg, hh⟩ := ih (dst.dropColl n) hmr
      exact ⟨hg.trans (Db.getColl_dropColl_ne hmn dst),
        hh.trans (Db.hasColl_dropColl_ne dst hmn)⟩
    · simp only [if_true]
      exact ih dst hmr

theorem dropLoop_hasColl_mono {f : Failures} :
    ∀ (L : List String) (dst : Db) {m : String},
      (dropLoop f dst L).hasColl m = true → dst.hasColl m = true := by
  intro L
  induction L with
  | nil => intro dst m h; exact h
  | cons n rest ih =>
    intro dst m h
    simp only [dropLoop] at h
    rcases hdrop : f.rcDrop n with _ | _
    · rw [hdrop] at h
      simp only [Bool.false_eq_true, if_false] at h
      exact Db.hasColl_dropColl_mono (ih _ h)
    · rw [hdrop] at h
      simp only [if_true] at h
      exact ih _ h

theorem dropLoop_WF {f : Failures} :
    ∀ (L : List String) {dst : Db}, dst.WF → (dropLoop f dst L).WF := by
  intro L
  induction L with
  | nil => intro dst h; exact h
  | cons n rest ih =>
    intro dst h
    simp only [dropLoop]
    rcases hdrop : f.rcDrop n with _ | _
    · simp only [Bool.false_eq_true, if_false]
      exact ih (Db.WF_dropColl h n)
    · simp only [if_true]
      exact ih h

theorem dropLoop_flagsFree {f : Failures} :
    ∀ (L : List String) (dst : Db), (∀ n ∈ L, f.rcDrop n = false) →
      ∀ n ∈ L, (dropLoop f dst L).hasColl n = false := by
  intro L
  induction L with
  | nil => intro dst _ n hn; cases hn
  | cons k rest ih =>
    intro dst hflags n hn
    simp only [dropLoop, hflags k (List.mem_cons_self k rest), Bool.false_eq_true, if_false]
    rcases List.mem_cons.mp hn with hn | hn
    · rcases hcase : (dropLoop f (dst.dropColl k) rest).hasColl n with _ | _
      · rfl
      · have := dropLoop_hasColl_mono rest _ hcase
        rw [hn, Db.hasColl_dropColl_self dst k] at this
        cases this
    · exact ih _ (fun p hp => hflags p (List.mem_cons_of_mem k hp)) n hn

theorem deleteLoopMat_frame {f : Failures} {n m : String} (hmn : m ≠ n)
    (S : List DocId) :
    ∀ (l : List DocId) (dst : Db),
      (unwrapDb (deleteLoopMat f n S dst l)).getColl m = dst.getColl m ∧
      (unwrapDb (deleteLoopMat f n S dst l)).hasColl m = dst.hasColl m := by
  intro l
  induction l with
  | nil => intro dst; exact ⟨rfl, rfl⟩
  | cons i rest ih =>
    intro dst
    simp only [deleteLoopMat]
    by_cases hc : S.contains i = true
    · rw [if_pos hc]
      exact ih dst
    · rw [if_neg hc]
      rcases hdel : f.rcDelete n i with _ | _
      · simp only [Bool.false_eq_true, if_false]
        obtain ⟨hg, hh⟩ := ih (dst.setColl n ((dst.getColl n).deleteOne i))
        exact ⟨hg.trans (Db.getColl_setColl_ne dst _ hmn),
          hh.trans (Db.hasColl_setColl_ne dst _ hmn)⟩
      · simp only [if_true]
        exact ⟨rfl, rfl⟩

theorem deleteLoopStream_frame {f : Failures} {n m : String} (hmn : m ≠ n)
    (srcColl : Coll) :
    ∀ (l : List DocId) (dst : Db),
      (unwrapDb (deleteLoopStream f n srcColl dst l)).getColl m = dst.getColl m ∧
      (unwrapDb (deleteLoopStream f n srcColl dst l)).hasColl m = dst.hasColl m := by
  intro l
  induction l with
  | nil => intro dst; exact ⟨rfl, rfl⟩
  | cons i rest ih =>
    intro dst
    simp only [deleteLoopStream]
    rcases hex : f.rcExist n i with _ | _
    · simp only [Bool.false_eq_true, if_false]
      by_cases hc : srcColl.hasId i = true
      · rw [if_pos hc]
        exact ih dst
      · rw [if_neg hc]
        rcases hdel : f.rcDelete n i with _ | _
        · simp only [Bool.false_eq_true, if_false]
          obtain ⟨hg, hh⟩ := ih (dst.setColl n ((dst.getColl n).deleteOne i))
          exact ⟨hg.trans (Db.getColl_setColl_ne dst _ hmn),
            hh.trans (Db.hasColl_setColl_ne dst _ hmn)⟩
        · simp only [if_true]
          exact ⟨rfl, rfl⟩
    · simp only [if_true]
      exact ⟨rfl, rfl⟩

theorem reconcilePair_frame (f : Failures) (thr : Nat) (src : Db) {n m : String}
    (hmn : m ≠ n) (dst : Db) :
    (unwrapDb (reconcilePair f thr src dst n)).getColl m = dst.getColl m ∧
    (unwrapDb (reconcilePair f thr src dst n)).hasColl m = dst.hasColl m := by
  unfold reconcilePair
  split
  · exact ⟨rfl, rfl⟩
  · split
    · split
      · exact ⟨rfl, rfl⟩
      · split
        · exact ⟨rfl, rfl⟩
        · exact deleteLoopMat_frame hmn _ _ dst
    · split
      · exact ⟨rfl, rfl⟩
      · exact deleteLoopStream_frame hmn _ _ dst

theorem reconcilePairs_frame (f : Failures) (thr : Nat) (src : Db) {m : String} :
    ∀ (L : List String) (dst : Db), m ∉ L →
      (reconcilePairs f thr src dst L).getColl m = dst.getColl m ∧
      (reconcilePairs f thr src dst L).hasColl m = dst.hasColl m := by
  intro L
  induction L with
  | nil => intro dst _; exact ⟨rfl, rfl⟩
  | cons n rest ih =>
    intro dst hm
    have hmn : m ≠ n := fun hh => hm (hh ▸ List.mem_cons_self n rest)
    have hmr : m ∉ rest := fun hh => hm (List.mem_cons_of_mem n hh)
    simp only [reconcilePairs]
    rcases hp : reconcilePair f thr src dst n with d | d
    · have hframe := reconcilePair_frame f thr src hmn dst
      rw [hp] at hframe
      exact hframe
    · have hframe := reconcilePair_frame f thr src hmn dst
      rw [hp] at hframe
      obtain ⟨hg, hh⟩ := ih d hmr
      exact ⟨hg.trans hframe.1, hh.trans hframe.2⟩

theorem deleteLoopMat_flagsFree {f : Failures} {n : String}
    (hd : ∀ i, f.rcDelete n i = false) (S : List DocId) :
    ∀ (l : List DocId) (dst : Db),
      ∃ d', deleteLoopMat f n S dst l = .ok d' ∧
        d'.getColl n = deleteIds S (dst.getColl n) l ∧
        (∀ m, m ≠ n → d'.getColl m = dst.getColl m) ∧
        (dst.hasColl n = true → d'.collNames = dst.collNames) ∧
        (dst.WF → d'.WF) := by
  intro l
  induction l with
  | nil =>
    intro dst
    exact ⟨dst, rfl, rfl, fun _ _ => rfl, fun _ => rfl, fun h => h⟩
  | cons i rest ih =>
    intro dst
    simp only [deleteLoopMat, deleteIds]
    by_cases hc : S.contains i = true
    · rw [if_pos hc, if_pos hc]
      exact ih dst
    · rw [if_neg hc, if_neg hc, hd i]
      simp only [Bool.false_eq_true, if_false]
      obtain ⟨d', hok, hgn, hgm, hnames, hwf⟩ :=
        ih (dst.setColl n ((dst.getColl n).deleteOne i))
      refine ⟨d', hok, ?_, ?_, ?_, ?_⟩
      · rw [hgn, Db.getColl_setColl_self]
      · intro m hm
        rw [hgm m hm, Db.getColl_setColl_ne dst _ hm]
      · intro hh
        rw [hnames (Db.hasColl_setColl_self dst n _), Db.collNames_setColl_of_has _ hh]
      · intro hh
        exact hwf (Db.WF_setColl hh (Coll.WF_deleteOne (Db.WF_getColl hh n) i))

theorem deleteLoopStream_eq_mat {f : Failures} {n : String}
    (he : ∀ i, f.rcExist n i = false) (srcColl : Coll) :
    ∀ (l : List DocId) (dst : Db),
      deleteLoopStream f n srcColl dst l =
        deleteLoopMat f n (Coll.ids srcColl) dst l := by
  intro l
  induction l with
  | nil => intro dst; rfl
  | cons i rest ih =>
    intro dst
    simp only [deleteLoopStream, deleteLoopMat, he i, Bool.false_eq_true, if_false,
      Coll.contains_ids]
    by_cases hc : srcColl.hasId i = true
    · rw [if_pos hc, if_pos hc]
      exact ih dst
    · rw [if_neg hc, if_neg hc]
      rcases hdel : f.rcDelete n i with _ | _
      · simp only [Bool.false_eq_true, if_false]
        exact ih _
      · simp only [if_true]

theorem reconcilePair_flagsFree {f : Failures} {n : String}
    (hsc : f.rcSrcCount n = false) (hdc : f.rcDstCount n = false)
    (hsf : f.rcSrcFind n = false) (hdf : f.rcDstFind n = false)
    (he : ∀ i, f.rcExist n i = false) (hd : ∀ i, f.rcDelete n i = false)
    (thr : Nat) (src : Db) (dst : Db) :
    ∃ d', reconcilePair f thr src dst n = .ok d' ∧
      d'.getColl n = (dst.getColl n).filter (fun d => (src.getColl n).hasId d.1) ∧
      (∀ m, m ≠ n → d'.getColl m = dst.getColl m) ∧
      (dst.hasColl n = true → d'.collNames = dst.collNames) ∧
      (dst.WF → d'.WF) := by
  have hfilter : deleteIds (Coll.ids (src.getColl n)) (dst.getColl n)
      (Coll.ids (dst.getColl n)) =
      (dst.getColl n).filter (fun d => (src.getColl n).hasId d.1) := by
    rw [deleteIds_self]
    exact List.filter_congr (fun d _ => Coll.contains_ids)
  unfold reconcilePair
  rw [if_neg (by simp [hsc, hdc])]
  split
  · rw [if_neg (by simp [hsf]), if_neg (by simp [hdf])]
    obtain ⟨d', hok, hgn, hgm, hnames, hwf⟩ :=
      deleteLoopMat_flagsFree hd (Coll.ids (src.getColl n)) (Coll.ids (dst.getColl n)) dst
    exact ⟨d', hok, by rw [hgn, hfilter], hgm, hnames, hwf⟩
  · rw [if_neg (by simp [hdf]), deleteLoopStream_eq_mat he]
    obtain ⟨d', hok, hgn, hgm, hnames, hwf⟩ :=
      deleteLoopMat_flagsFree hd (Coll.ids (src.getColl n)) (Coll.ids (dst.getColl n)) dst
    exact ⟨d', hok, by rw [hgn, hfilter], hgm, hnames, hwf⟩

theorem reconcilePair_skip {f : Failures} {n : String}
    (h : (f.rcSrcCount n || f.rcDstCount n) = true) (thr : Nat) (src dst : Db) :
    reconcilePair f thr src dst n = .ok dst := by
  unfold reconcilePair
  rw [if_pos h]

/-- Running the pair loop over pairs whose store calls either fail only at the
counts (pair skipped) or not at all (pair fully reconciled): each skipped pair
is left untouched, each reconciled pair keeps exactly the documents whose id
exists in source, and the collection structure survives. -/
theorem reconcilePairs_mixed {f : Failures} {thr : Nat} {src : Db} :
    ∀ (L : List String) (dst : Db),
      (∀ n ∈ L, (f.rcSrcCount n || f.rcDstCount n) = true ∨
        (f.rcSrcCount n = false ∧ f.rcDstCount n = false ∧ f.rcSrcFind n = false ∧
         f.rcDstFind n = false ∧ (∀ i, f.rcExist n i = false) ∧
         (∀ i, f.rcDelete n i = false))) →
      L.Nodup → (∀ n ∈ L, dst.hasColl n = true) →
      (∀ n ∈ L,
        ((f.rcSrcCount n || f.rcDstCount n) = true →
          (reconcilePairs f thr src dst L).getColl n = dst.getColl n) ∧
        ((f.rcSrcCount n || f.rcDstCount n) = false →
          (reconcilePairs f thr src dst L).getColl n =
            (dst.getColl n).filter (fun d => (src.getColl n).hasId d.1))) ∧
      (reconcilePairs f thr src dst L).collNames = dst.collNames ∧
      (dst.WF → (reconcilePairs f thr src dst L).WF) := by
  intro L
  induction L with
  | nil =>
    intro dst _ _ _
    exact ⟨fun n hn => absurd hn (List.not_mem_nil n), rfl, fun h => h⟩
  | cons n rest ih =>
    intro dst hflags hnd hhas
    have hnr : n ∉ rest := (List.nodup_cons.mp hnd).1
    rcases hflags n (List.mem_cons_self n rest) with hskip | hsix
    · have hstep : reconcilePairs f thr src dst (n :: rest) =
          reconcilePairs f thr src dst rest := by
        simp only [reconcilePairs]
        rw [reconcilePair_skip hskip]
      rw [hstep]
      obtain ⟨hget, hnames, hwf⟩ := ih dst
        (fun p hp => hflags p (List.mem_cons_of_mem n hp))
        (List.nodup_cons.mp hnd).2
        (fun p hp => hhas p (List.mem_cons_of_mem n hp))
      refine ⟨?_, hnames, hwf⟩
      intro n' hn'
      rcases List.mem_cons.mp hn' with rfl | hn'
      · constructor
        · intro _
          exact (reconcilePairs_frame f thr src rest dst hnr).1
        · intro hfalse
          rw [hskip] at hfalse
          cases hfalse
      · exact hget n' hn'
    · obtain ⟨h1, h2, h3, h4, h5, h6⟩ := hsix
      obtain ⟨d', hok, hgn, hgm, hnamesp, hwfp⟩ :=
        reconcilePair_flagsFree h1 h2 h3 h4 h5 h6 thr src dst
      have hstep : reconcilePairs f thr src dst (n :: rest) =
          reconcilePairs f thr src d' rest := by
        simp only [reconcilePairs]
        rw [hok]
      rw [hstep]
      have hnameseq : d'.collNames = dst.collNames :=
        hnamesp (hhas n (List.mem_cons_self n rest))
      have hhas' : ∀ p ∈ rest, d'.hasColl p = true := fun p hp =>
        (Db.hasColl_congr hnameseq p).trans (hhas p (List.mem_cons_of_mem n hp))
      obtain ⟨hget, hnames, hwf⟩ := ih d'
        (fun p hp => hflags p (List.mem_cons_of_mem n hp))
        (List.nodup_cons.mp hnd).2 hhas'
      refine ⟨?_, hnames.trans hnameseq, fun h => hwf (hwfp h)⟩
      intro n' hn'
      rcases List.mem_cons.mp hn' with rfl | hn'
      · constructor
        · intro htrue
          rw [h1, h2] at htrue
          cases htrue
        · intro _
          rw [(reconcilePairs_frame f thr src rest d' hnr).1, hgn]
      · have hne : n' ≠ n := fun hh => hnr (hh ▸ hn')
        constructor
        · intro htrue
          rw [(hget n' hn').1 htrue, hgm n' hne]
        · intro hfalse
          rw [(hget n' hn').2 hfalse, hgm n' hne]

theorem mem_nonReserved {db : Db} {n : String} :
    n ∈ nonReserved db ↔ n ∈ db.collNames ∧ reservedName n = false := by
  unfold nonReserved
  rw [List.mem_filter]
  constructor
  · rintro ⟨hd, hres⟩
    exact ⟨hd, by simpa using hres⟩
  · rintro ⟨hd, hres⟩
    exact ⟨hd, by simp [hres]⟩

theorem mem_dropList {src dst : Db} {n : String} :
    n ∈ dropList src dst ↔
      n ∈ dst.collNames ∧ reservedName n = false ∧ n ∉ src.collNames := by
  unfold dropList
  rw [List.mem_filter, mem_nonReserved]
  constructor
  · rintro ⟨⟨hd, hres⟩, hc⟩
    refine ⟨hd, hres, ?_⟩
    intro hmem
    have hcon : (nonReserved src).contains n = true :=
      List.elem_iff.mpr (mem_nonReserved.mpr ⟨hmem, hres⟩)
    rw [hcon] at hc
    cases hc
  · rintro ⟨hd, hres, hnmem⟩
    refine ⟨⟨hd, hres⟩, ?_⟩
    rcases hcon : (nonReserved src).contains n with _ | _
    · rfl
    · exact absurd (List.elem_iff.mp hcon) (fun hm => hnmem (mem_nonReserved.mp hm).1)

theorem mem_pairList {src dst : Db} {n : String} :
    n ∈ pairList src dst ↔
      n ∈ dst.collNames ∧ reservedName n = false ∧ n ∈ src.collNames := by
  unfold pairList
  rw [List.mem_filter, mem_nonReserved]
  constructor
  · rintro ⟨⟨hd, hres⟩, hc⟩
    exact ⟨hd, hres, (mem_nonReserved.mp (List.elem_iff.mp hc)).1⟩
  · rintro ⟨hd, hres, hs⟩
    exact ⟨⟨hd, hres⟩, List.elem_iff.mpr (mem_nonReserved.mpr ⟨hs, hres⟩)⟩

theorem pairList_nodup {src dst : Db} (h : dst.collNames.Nodup) :
    (pairList src dst).Nodup :=
  (h.filter _).filter _

/-- Reserved collections are outside both reconciliation loops: no run, even a
failing one, touches them. -/
theorem reconcile_deletions_reserved (f : Failures) (thr : Nat) (src dst : Db)
    {n : String} (h : reservedName n = true) :
    (reconcile_deletions f thr src dst).getColl n = dst.getColl n ∧
    (reconcile_deletions f thr src dst).hasColl n = dst.hasColl n := by
  have hnd : n ∉ dropList src dst := fun hm => by
    rw [(mem_dropList.mp hm).2.1] at h
    cases h
  have hnp : n ∉ pairList src dst := fun hm => by
    rw [(mem_pairList.mp hm).2.1] at h
    cases h
  unfold reconcile_deletions
  obtain ⟨hg1, hh1⟩ := dropLoop_frame (dropList src dst) dst hnd
  obtain ⟨hg2, hh2⟩ := reconcilePairs_frame f thr src (pairList src dst) _ hnp
  exact ⟨hg2.trans hg1, hh2.trans hh1⟩

/-- Pointwise effect of `reconcile_deletions` on a well-formed destination,
when drops do not fail and every pair either fails only in its counts (and is
skipped) or not at all (and is reconciled). -/
theorem reconcile_deletions_char {f : Failures} {thr : Nat} {src : Db} {dst : Db}
    (hdst : dst.WF)
    (hdropf : ∀ n ∈ dropList src dst, f.rcDrop n = false)
    (hpairf : ∀ n ∈ pairList src dst, (f.rcSrcCount n || f.rcDstCount n) = true ∨
      (f.rcSrcCount n = false ∧ f.rcDstCount n = false ∧ f.rcSrcFind n = false ∧
       f.rcDstFind n = false ∧ (∀ i, f.rcExist n i = false) ∧
       (∀ i, f.rcDelete n i = false))) :
    (∀ n ∈ pairList src dst,
      ((f.rcSrcCount n || f.rcDstCount n) = true →
        (reconcile_deletions f thr src dst).getColl n = dst.getColl n) ∧
      ((f.rcSrcCount n || f.rcDstCount n) = false →
        (reconcile_deletions f thr src dst).getColl n =
          (dst.getColl n).filter (fun d => (src.getColl n).hasId d.1)) ∧
      (reconcile_deletions f thr src dst).hasColl n = true) ∧
    (∀ n ∈ dropList src dst,
      (reconcile_deletions f thr src dst).hasColl n = false ∧
      (reconcile_deletions f thr src dst).getColl n = []) ∧
    (∀ n, n ∉ dropList src dst → n ∉ pairList src dst →
      (reconcile_deletions f thr src dst).getColl n = dst.getColl n ∧
      (reconcile_deletions f thr src dst).hasColl n = dst.hasColl n) ∧
    (reconcile_deletions f thr src dst).WF := by
  have hWF1 : (dropLoop f dst (dropList src dst)).WF := dropLoop_WF _ hdst
  have hdisj : ∀ n ∈ pairList src dst, n ∉ dropList src dst := fun n hm hd =>
    (mem_dropList.mp hd).2.2 (mem_pairList.mp hm).2.2
  have hhas1 : ∀ n ∈ pairList src dst,
      (dropLoop f dst (dropList src dst)).hasColl n = true := fun n hm =>
    ((dropLoop_frame (dropList src dst) dst (hdisj n hm)).2).trans
      (Db.hasColl_iff.mpr (mem_pairList.mp hm).1)
  obtain ⟨hget, hnames, hwf⟩ :=
    reconcilePairs_mixed (pairList src dst) (dropLoop f dst (dropList src dst))
      hpairf (pairList_nodup hdst.1) hhas1
  refine ⟨?_, ?_, ?_, hwf hWF1⟩
  · intro n hn
    have hfr := (@dropLoop_frame f n (dropList src dst) dst (hdisj n hn)).1
    refine ⟨?_, ?_, ?_⟩
    · intro htrue
      exact ((hget n hn).1 htrue).trans hfr
    · intro hfalse
      have := (hget n hn).2 hfalse
      rw [hfr] at this
      exact this
    · exact (Db.hasColl_congr hnames n).trans (hhas1 n hn)
  · intro n hn
    have hfalse1 : (dropLoop f dst (dropList src dst)).hasColl n = false :=
      dropLoop_flagsFree (dropList src dst) dst hdropf n hn
    have hfalse2 : (reconcile_deletions f thr src dst).hasColl n = false :=
      (Db.hasColl_congr hnames n).trans hfalse1
    exact ⟨hfalse2, Db.getColl_eq_nil hfalse2⟩
  · intro n hnd hnp
    obtain ⟨hg1, hh1⟩ := dropLoop_frame (dropList src dst) dst hnd
    obtain ⟨hg2, hh2⟩ := reconcilePairs_frame f thr src (pairList src dst) _ hnp
    exact ⟨hg2.trans hg1, hh2.trans hh1⟩

/-! ### Content lookup through filters -/

theorem Coll.mem_of_contentAt {c : Coll} {i : DocId} {v : Payload}
    (h : c.contentAt i = some v) : (i, v) ∈ c := by
  induction c with
  | nil => cases h
  | cons e rest ih =>
    by_cases he : e.1 = i
    · rw [Coll.contentAt_cons_self he] at h
      have : e = (i, v) := by
        rw [← he, ← Option.some.inj h]
      rw [← this]
      exact List.mem_cons_self e rest
    · rw [Coll.contentAt_cons_ne he] at h
      exact List.mem_cons_of_mem e (ih h)

theorem Coll.contentAt_of_mem_nodup {c : Coll} (hwf : c.WF) {i : DocId} {v : Payload}
    (h : (i, v) ∈ c) : c.contentAt i = some v := by
  induction c with
  | nil => cases h
  | cons e rest ih =>
    have hwf' : (e.1 :: Coll.ids rest).Nodup := hwf
    rcases List.mem_cons.mp h with h | h
    · rw [← h]
      exact Coll.contentAt_cons_self rfl rest
    · have hne : e.1 ≠ i := by
        intro he
        apply (List.nodup_cons.mp hwf').1
        have : (i, v).1 ∈ Coll.ids rest := List.mem_map_of_mem Prod.fst h
        rw [he]
        exact this
      rw [Coll.contentAt_cons_ne hne]
      exact ih (List.nodup_cons.mp hwf').2 h

theorem Coll.contentAt_filter_of_pred {c : Coll} {i : DocId} {v : Payload}
    (h : c.contentAt i = some v) {p : Doc → Bool}
    (hp : ∀ d : Doc, d.1 = i → p d = true) :
    Coll.contentAt (c.filter p) i = some v := by
  induction c with
  | nil => cases h
  | cons e rest ih =>
    rw [List.filter_cons]
    by_cases he : e.1 = i
    · rw [Coll.contentAt_cons_self he] at h
      rw [if_pos (hp e he)]
      rw [Coll.contentAt_cons_self he, h]
    · rw [Coll.contentAt_cons_ne he] at h
      by_cases hpe : p e = true
      · rw [if_pos hpe, Coll.contentAt_cons_ne he]
        exact ih h
      · rw [if_neg hpe]
        exact ih h

theorem Coll.hasId_filter_false {c : Coll} {i : DocId} {p : Doc → Bool}
    (hp : ∀ d : Doc, d.1 = i → p d = false) :
    Coll.hasId (c.filter p) i = false := by
  rw [Coll.hasId_eq_false_iff]
  intro hmem
  obtain ⟨d, hd, hdi⟩ := List.mem_map.mp hmem
  have := (List.mem_filter.mp hd).2
  rw [hp d hdi] at this
  cases this

theorem Coll.hasId_filter_pred {c : Coll} {i : DocId} {p : Doc → Bool}
    (h : Coll.hasId (c.filter p) i = true) : ∃ d : Doc, d ∈ c ∧ d.1 = i ∧ p d = true := by
  obtain ⟨d, hd, hdi⟩ := List.mem_map.mp (Coll.hasId_iff.mp h)
  obtain ⟨hdc, hdp⟩ := List.mem_filter.mp hd
  exact ⟨d, hdc, hdi, hdp⟩

theorem Coll.hasId_of_empty (i : DocId) : Coll.hasId [] i = false := rfl

/-! ### End-to-end facts about one full pass, failure-free -/

theorem syncOne_reserved (f : Failures) (thr : Nat) (src dst : Db) {n : String}
    (h : reservedName n = true) :
    (syncOne f thr src dst).getColl n = dst.getColl n ∧
    (syncOne f thr src dst).hasColl n = dst.hasColl n := by
  unfold syncOne
  obtain ⟨hg1, hh1⟩ := incremental_upsert_reserved f thr src dst h
  obtain ⟨hg2, hh2⟩ := reconcile_deletions_reserved f thr src (incremental_upsert f thr src dst) h
  exact ⟨hg2.trans hg1, hh2.trans hh1⟩

theorem noFail_pairFlags (src dst : Db) :
    ∀ n ∈ pairList src dst, (noFail.rcSrcCount n || noFail.rcDstCount n) = true ∨
      (noFail.rcSrcCount n = false ∧ noFail.rcDstCount n = false ∧
       noFail.rcSrcFind n = false ∧ noFail.rcDstFind n = false ∧
       (∀ i, noFail.rcExist n i = false) ∧ (∀ i, noFail.rcDelete n i = false)) :=
  fun _ _ => Or.inr ⟨rfl, rfl, rfl, rfl, fun _ => rfl, fun _ => rfl⟩

/-- Convergence of one failure-free pass: source content at a non-reserved
(collection, id) is found identically in the destination afterwards. -/
theorem syncOne_contentAt {thr : Nat} {src dst : Db} (hsrc : src.WF) (hdst : dst.WF)
    {n : String} (hres : reservedName n = false) {i : DocId} {v : Payload}
    (hsv : (src.getColl n).contentAt i = some v) :
    ((syncOne noFail thr src dst).getColl n).contentAt i = some v := by
  have hmemsrc : (i, v) ∈ src.getColl n := Coll.mem_of_contentAt hsv
  have hlen : (src.getColl n).length ≠ 0 := by
    intro hh
    rw [List.length_eq_zero] at hh
    rw [hh] at hmemsrc
    cases hmemsrc
  have hUg : (incremental_upsert noFail thr src dst).getColl n =
      (src.getColl n).foldl Coll.replaceOne (dst.getColl n) := by
    rw [@incremental_upsert_getColl noFail n rfl rfl (fun _ => rfl) thr src hsrc.1 dst]
    rw [if_neg ?hguard]
    case hguard =>
      rintro (hc | hc)
      · rw [hres] at hc
        cases hc
      · exact hlen hc
  have hUc : ((incremental_upsert noFail thr src dst).getColl n).contentAt i = some v := by
    rw [hUg]
    exact foldl_replaceOne_contentAt_mem (src.getColl n) _ (Db.WF_getColl hsrc n) hmemsrc
  have hUhas : (incremental_upsert noFail thr src dst).hasColl n = true :=
    @incremental_upsert_hasColl_pos noFail n rfl rfl (fun _ => rfl) thr src hsrc.1 dst hres hlen
  have hUWF : (incremental_upsert noFail thr src dst).WF :=
    incremental_upsert_WF hdst noFail thr src
  have hsrcmem : n ∈ src.collNames :=
    Db.hasColl_iff.mp (Db.hasColl_of_getColl_ne_nil
      (fun hh => hlen (by rw [hh]; rfl)))
  have hpl : n ∈ pairList src (incremental_upsert noFail thr src dst) :=
    mem_pairList.mpr ⟨Db.hasColl_iff.mp hUhas, hres, hsrcmem⟩
  obtain ⟨hpair, _, _, _⟩ :=
    @reconcile_deletions_char noFail thr src (incremental_upsert noFail thr src dst)
      hUWF (fun _ _ => rfl) (noFail_pairFlags src _)
  have hfilter := (hpair n hpl).2.1 rfl
  show ((reconcile_deletions noFail thr src (incremental_upsert noFail thr src dst)).getColl n).contentAt i = some v
  rw [hfilter]
  exact Coll.contentAt_filter_of_pred hUc
    (fun d hd => by
      show Coll.hasId (src.getColl n) d.1 = true
      rw [hd]
      exact Coll.hasId_iff.mpr (List.mem_map_of_mem Prod.fst hmemsrc))

theorem pl_or_dl {src dst : Db} {n : String} (hres : reservedName n = false)
    (hhas : dst.hasColl n = true) :
    n ∈ pairList src dst ∨ n ∈ dropList src dst := by
  by_cases hs : n ∈ src.collNames
  · exact Or.inl (mem_pairList.mpr ⟨Db.hasColl_iff.mp hhas, hres, hs⟩)
  · exact Or.inr (mem_dropList.mpr ⟨Db.hasColl_iff.mp hhas, hres, hs⟩)

/-- Deletion fidelity of one failure-free pass: a non-reserved destination
collection never keeps an id the source lacks. -/
theorem syncOne_hasId_false {thr : Nat} {src dst : Db} (hdst : dst.WF)
    {n : String} (hres : reservedName n = false) {i : DocId}
    (hno : (src.getColl n).hasId i = false) :
    Coll.hasId ((syncOne noFail thr src dst).getColl n) i = false := by
  have hUWF := incremental_upsert_WF hdst noFail thr src
  obtain ⟨hpair, hdrop, hframe, _⟩ :=
    @reconcile_deletions_char noFail thr src (incremental_upsert noFail thr src dst)
      hUWF (fun _ _ => rfl) (noFail_pairFlags src _)
  show Coll.hasId
    ((reconcile_deletions noFail thr src (incremental_upsert noFail thr src dst)).getColl n) i = false
  rcases hU : (incremental_upsert noFail thr src dst).hasColl n with _ | _
  · have hnp : n ∉ pairList src (incremental_upsert noFail thr src dst) := fun hm =>
      absurd (Db.hasColl_iff.mpr (mem_pairList.mp hm).1)
        (by rw [hU]; exact Bool.false_ne_true)
    have hnd : n ∉ dropList src (incremental_upsert noFail thr src dst) := fun hm =>
      absurd (Db.hasColl_iff.mpr (mem_dropList.mp hm).1)
        (by rw [hU]; exact Bool.false_ne_true)
    rw [(hframe n hnd hnp).1, Db.getColl_eq_nil hU]
    rfl
  · rcases pl_or_dl hres hU with hm | hm
    · have hfilter := (hpair n hm).2.1 rfl
      rw [hfilter]
      apply Coll.hasId_filter_false
      intro d hd
      show Coll.hasId (src.getColl n) d.1 = false
      rw [hd]
      exact hno
    · rw [(hdrop n hm).2]
      rfl

/-- Collection removal of one failure-free pass: a non-reserved collection
name the source does not carry does not exist in the destination afterwards. -/
theorem syncOne_hasColl_false {thr : Nat} {src dst : Db} (hdst : dst.WF)
    {n : String} (hres : reservedName n = false) (hno : src.hasColl n = false) :
    (syncOne noFail thr src dst).hasColl n = false := by
  have hUWF := incremental_upsert_WF hdst noFail thr src
  obtain ⟨hpair, hdrop, hframe, _⟩ :=
    @reconcile_deletions_char noFail thr src (incremental_upsert noFail thr src dst)
      hUWF (fun _ _ => rfl) (noFail_pairFlags src _)
  show (reconcile_deletions noFail thr src (incremental_upsert noFail thr src dst)).hasColl n = false
  rcases hU : (incremental_upsert noFail thr src dst).hasColl n with _ | _
  · have hnp : n ∉ pairList src (incremental_upsert noFail thr src dst) := fun hm =>
      absurd (Db.hasColl_iff.mpr (mem_pairList.mp hm).1)
        (by rw [hU]; exact Bool.false_ne_true)
    have hnd : n ∉ dropList src (incremental_upsert noFail thr src dst) := fun hm =>
      absurd (Db.hasColl_iff.mpr (mem_dropList.mp hm).1)
        (by rw [hU]; exact Bool.false_ne_true)
    exact ((hframe n hnd hnp).2).trans hU
  · rcases pl_or_dl hres hU with hm | hm
    · exact absurd (Db.hasColl_iff.mpr (mem_pairList.mp hm).2.2)
        (by rw [hno]; exact Bool.false_ne_true)
    · exact (hdrop n hm).1

/-- Empty-source reconciliation of one failure-free pass: a collection pair
with an empty source collection is emptied on the destination side, while the
collection itself survives. -/
theorem syncOne_emptySource {thr : Nat} {src dst : Db} (hsrc : src.WF) (hdst : dst.WF)
    {n : String} (hres : reservedName n = false) (hs : src.hasColl n = true)
    (hempty : src.getColl n = []) (hd : dst.hasColl n = true) :
    (syncOne noFail thr src dst).getColl n = [] ∧
    (syncOne noFail thr src dst).hasColl n = true := by
  have hlen : (src.getColl n).length = 0 := by rw [hempty]; rfl
  have hUWF := incremental_upsert_WF hdst noFail thr src
  have hUhas : (incremental_upsert noFail thr src dst).hasColl n = true :=
    (@incremental_upsert_hasColl_eq noFail n rfl rfl (fun _ => rfl) thr src hsrc.1 dst
      (Or.inr hlen)).trans hd
  obtain ⟨hpair, _, _, _⟩ :=
    @reconcile_deletions_char noFail thr src (incremental_upsert noFail thr src dst)
      hUWF (fun _ _ => rfl) (noFail_pairFlags src _)
  have hm : n ∈ pairList src (incremental_upsert noFail thr src dst) :=
    mem_pairList.mpr ⟨Db.hasColl_iff.mp hUhas, hres, Db.hasColl_iff.mp hs⟩
  constructor
  · have hfilter := (hpair n hm).2.1 rfl
    show (reconcile_deletions noFail thr src (incremental_upsert noFail thr src dst)).getColl n = []
    rw [hfilter]
    apply List.filter_eq_nil_iff.mpr
    intro d _
    intro hc
    have hc' : Coll.hasId (src.getColl n) d.1 = true := hc
    rw [hempty] at hc'
    exact Bool.false_ne_true ((Coll.hasId_of_empty d.1).symm.trans hc')
  · exact (hpair n hm).2.2

@[simp] theorem noFail_upSrcCount (n : String) : noFail.upSrcCount n = false := rfl

@[simp] theorem noFail_upSrcFind (n : String) : noFail.upSrcFind n = false := rfl

@[simp] theorem noFail_upWrite (n : String) (i : Nat) : noFail.upWrite n i = false := rfl

@[simp] theorem noFail_rcSrcCount (n : String) : noFail.rcSrcCount n = false := rfl

@[simp] theorem noFail_rcDstCount (n : String) : noFail.rcDstCount n = false := rfl

@[simp] theorem noFail_rcSrcFind (n : String) : noFail.rcSrcFind n = false := rfl

@[simp] theorem noFail_rcDstFind (n : String) : noFail.rcDstFind n = false := rfl

@[simp] theorem noFail_rcExist (n : String) (i : DocId) : noFail.rcExist n i = false := rfl

@[simp] theorem noFail_rcDelete (n : String) (i : DocId) : noFail.rcDelete n i = false := rfl

@[simp] theorem noFail_rcDrop (n : String) : noFail.rcDrop n = false := rfl

/-! ### Identity of a second failure-free pass -/

theorem deleteLoopMat_id {f : Failures} {n : String} {S : List DocId} :
    ∀ (l : List DocId) (dst : Db), (∀ i ∈ l, S.contains i = true) →
      deleteLoopMat f n S dst l = .ok dst := by
  intro l
  induction l with
  | nil => intro dst _; rfl
  | cons i rest ih =>
    intro dst h
    simp only [deleteLoopMat]
    rw [if_pos (h i (List.mem_cons_self i rest))]
    exact ih dst (fun j hj => h j (List.mem_cons_of_mem i hj))

theorem deleteLoopStream_id {f : Failures} {n : String} {srcColl : Coll}
    (hex : ∀ i, f.rcExist n i = false) :
    ∀ (l : List DocId) (dst : Db), (∀ i ∈ l, srcColl.hasId i = true) →
      deleteLoopStream f n srcColl dst l = .ok dst := by
  intro l
  induction l with
  | nil => intro dst _; rfl
  | cons i rest ih =>
    intro dst h
    simp only [deleteLoopStream, hex i, Bool.false_eq_true, if_false]
    rw [if_pos (h i (List.mem_cons_self i rest))]
    exact ih dst (fun j hj => h j (List.mem_cons_of_mem i hj))

theorem reconcilePair_id {thr : Nat} {src dst : Db} {n : String}
    (hsub : ∀ i, Coll.hasId (dst.getColl n) i = true →
      Coll.hasId (src.getColl n) i = true) :
    reconcilePair noFail thr src dst n = .ok dst := by
  unfold reconcilePair
  rw [if_neg (by simp)]
  split
  · rw [if_neg (by simp), if_neg (by simp)]
    apply deleteLoopMat_id
    intro i hi
    rw [Coll.contains_ids]
    exact hsub i (Coll.hasId_iff.mpr hi)
  · rw [if_neg (by simp)]
    apply deleteLoopStream_id (fun _ => rfl)
    intro i hi
    exact hsub i (Coll.hasId_iff.mpr hi)

theorem reconcilePairs_id {thr : Nat} {src : Db} :
    ∀ (L : List String) (dst : Db),
      (∀ n ∈ L, ∀ i, Coll.hasId (dst.getColl n) i = true →
        Coll.hasId (src.getColl n) i = true) →
      reconcilePairs noFail thr src dst L = dst := by
  intro L
  induction L with
  | nil => intro dst _; rfl
  | cons n rest ih =>
    intro dst h
    simp only [reconcilePairs]
    rw [reconcilePair_id (h n (List.mem_cons_self n rest))]
    exact ih dst (fun p hp => h p (List.mem_cons_of_mem n hp))

theorem reconcile_deletions_id {thr : Nat} {src : Db} {dst : Db}
    (hnames : ∀ n, reservedName n = false → dst.hasColl n = true →
      src.hasColl n = true)
    (hids : ∀ n, reservedName n = false →
      ∀ i, Coll.hasId (dst.getColl n) i = true →
        Coll.hasId (src.getColl n) i = true) :
    reconcile_deletions noFail thr src dst = dst := by
  have hdl : dropList src dst = [] := by
    apply List.filter_eq_nil_iff.mpr
    intro n hn
    obtain ⟨hmem, hres⟩ := mem_nonReserved.mp hn
    have hsrc : src.hasColl n = true := hnames n hres (Db.hasColl_iff.mpr hmem)
    have hcon : (nonReserved src).contains n = true :=
      List.elem_iff.mpr (mem_nonReserved.mpr ⟨Db.hasColl_iff.mp hsrc, hres⟩)
    intro hc
    have hc' : (!(nonReserved src).contains n) = true := hc
    rw [hcon] at hc'
    cases hc'
  unfold reconcile_deletions
  rw [hdl]
  apply reconcilePairs_id
  intro n hn
  exact hids n (mem_pairList.mp hn).2.1

theorem upsertColl_id {thr : Nat} {src D : Db} {n : String}
    (hnd : D.collNames.Nodup)
    (hfact : reservedName n = false → (src.getColl n).length ≠ 0 →
      D.hasColl n = true ∧
      ∀ d ∈ src.getColl n, Coll.contentAt (D.getColl n) d.1 = some d.2) :
    upsertColl noFail thr src D n = D := by
  by_cases hres : reservedName n = true
  · exact upsertColl_reserved hres noFail thr src D
  · rw [upsertColl_flagsFree rfl rfl (fun _ => rfl) (Bool.eq_false_iff.mpr hres) thr src]
    by_cases hlen : (src.getColl n).length = 0
    · rw [if_pos (by simpa using hlen)]
    · rw [if_neg (by simpa using hlen)]
      obtain ⟨hhas, hcont⟩ := hfact (Bool.eq_false_iff.mpr hres) hlen
      rw [foldl_replaceOne_id (src.getColl n) hcont]
      exact Db.setColl_getColl_self D hnd hhas

theorem incremental_upsert_id {thr : Nat} {src D : Db} (hnd : D.collNames.Nodup)
    (hfact : ∀ n, reservedName n = false → (src.getColl n).length ≠ 0 →
      D.hasColl n = true ∧
      ∀ d ∈ src.getColl n, Coll.contentAt (D.getColl n) d.1 = some d.2) :
    incremental_upsert noFail thr src D = D := by
  unfold incremental_upsert
  have hgen : ∀ L : List String,
      L.foldl (fun d n => upsertColl noFail thr src d n) D = D := by
    intro L
    induction L with
    | nil => rfl
    | cons n rest ih =>
      rw [List.foldl_cons, upsertColl_id hnd (hfact n)]
      exact ih
  exact hgen src.collNames

/-- The state a failure-free pass leaves behind: well-formed, with every
non-reserved destination collection and document backed by the source. -/
theorem syncOne_char {thr : Nat} {src dst : Db} (hsrc : src.WF) (hdst : dst.WF) :
    (syncOne noFail thr src dst).WF ∧
    (∀ n, reservedName n = false → (syncOne noFail thr src dst).hasColl n = true →
      src.hasColl n = true) ∧
    (∀ n, reservedName n = false →
      ∀ i, Coll.hasId ((syncOne noFail thr src dst).getColl n) i = true →
        Coll.hasId (src.getColl n) i = true) ∧
    (∀ n, reservedName n = false → (src.getColl n).length ≠ 0 →
      (syncOne noFail thr src dst).hasColl n = true) := by
  have hUWF := incremental_upsert_WF hdst noFail thr src
  obtain ⟨hpair, hdrop, hframe, hwf⟩ :=
    @reconcile_deletions_char noFail thr src (incremental_upsert noFail thr src dst)
      hUWF (fun _ _ => rfl) (noFail_pairFlags src _)
  have hsync : syncOne noFail thr src dst =
      reconcile_deletions noFail thr src (incremental_upsert noFail thr src dst) := rfl
  refine ⟨hwf, ?_, ?_, ?_⟩
  · intro n hres hD
    rw [hsync] at hD
    rcases hU : (incremental_upsert noFail thr src dst).hasColl n with _ | _
    · have hnp : n ∉ pairList src (incremental_upsert noFail thr src dst) := fun hm =>
        absurd (Db.hasColl_iff.mpr (mem_pairList.mp hm).1)
          (by rw [hU]; exact Bool.false_ne_true)
      have hnd : n ∉ dropList src (incremental_upsert noFail thr src dst) := fun hm =>
        absurd (Db.hasColl_iff.mpr (mem_dropList.mp hm).1)
          (by rw [hU]; exact Bool.false_ne_true)
      rw [(hframe n hnd hnp).2, hU] at hD
      cases hD
    · rcases pl_or_dl hres hU with hm | hm
      · exact Db.hasColl_iff.mpr (mem_pairList.mp hm).2.2
      · rw [(hdrop n hm).1] at hD
        cases hD
  · intro n hres i hD
    rw [hsync] at hD
    rcases hU : (incremental_upsert noFail thr src dst).hasColl n with _ | _
    · have hnp : n ∉ pairList src (incremental_upsert noFail thr src dst) := fun hm =>
        absurd (Db.hasColl_iff.mpr (mem_pairList.mp hm).1)
          (by rw [hU]; exact Bool.false_ne_true)
      have hnd : n ∉ dropList src (incremental_upsert noFail thr src dst) := fun hm =>
        absurd (Db.hasColl_iff.mpr (mem_dropList.mp hm).1)
          (by rw [hU]; exact Bool.false_ne_true)
      rw [(hframe n hnd hnp).1, Db.getColl_eq_nil hU] at hD
      cases hD
    · rcases pl_or_dl hres hU with hm | hm
      · have hfilter := (hpair n hm).2.1 rfl
        rw [hfilter] at hD
        obtain ⟨d, _, hdi, hdp⟩ := Coll.hasId_filter_pred hD
        have hdp' : Coll.hasId (src.getColl n) d.1 = true := hdp
        rw [hdi] at hdp'
        exact hdp'
      · rw [(hdrop n hm).2] at hD
        cases hD
  · intro n hres hlen
    have hUhas : (incremental_upsert noFail thr src dst).hasColl n = true :=
      @incremental_upsert_hasColl_pos noFail n rfl rfl (fun _ => rfl) thr src hsrc.1 dst hres hlen
    have hsrcmem : n ∈ src.collNames :=
      Db.hasColl_iff.mp (Db.hasColl_of_getColl_ne_nil
        (fun hh => hlen (by rw [hh]; rfl)))
    have hm : n ∈ pairList src (incremental_upsert noFail thr src dst) :=
      mem_pairList.mpr ⟨Db.hasColl_iff.mp hUhas, hres, hsrcmem⟩
    rw [hsync]
    exact (hpair n hm).2.2

/-- A second failure-free pass over an already synchronized destination is the
identity, collection by collection and document by document. -/
theorem syncOne_idem {thr : Nat} {src dst : Db} (hsrc : src.WF) (hdst : dst.WF) :
    syncOne noFail thr src (syncOne noFail thr src dst) = syncOne noFail thr src dst := by
  obtain ⟨hWF, hnames, hids, hhas⟩ := @syncOne_char thr src dst hsrc hdst
  have hfact : ∀ n, reservedName n = false → (src.getColl n).length ≠ 0 →
      (syncOne noFail thr src dst).hasColl n = true ∧
      ∀ d ∈ src.getColl n,
        Coll.contentAt ((syncOne noFail thr src dst).getColl n) d.1 = some d.2 := by
    intro n hres hlen
    refine ⟨hhas n hres hlen, ?_⟩
    intro d hd
    have hsv : (src.getColl n).contentAt d.1 = some d.2 :=
      Coll.contentAt_of_mem_nodup (Db.WF_getColl hsrc n) hd
    exact syncOne_contentAt hsrc hdst hres hsv
  have h1 : incremental_upsert noFail thr src (syncOne noFail thr src dst) =
      syncOne noFail thr src dst := incremental_upsert_id hWF.1 hfact
  show reconcile_deletions noFail thr src
      (incremental_upsert noFail thr src (syncOne noFail thr src dst)) =
    syncOne noFail thr src dst
  rw [h1]
  exact reconcile_deletions_id hnames hids

/-! ### Strategy equivalence: the threshold never changes the outcome -/

theorem upsertColl_thr (f : Failures) (t1 t2 : Nat) (src dst : Db) (n : String) :
    upsertColl f t1 src dst n = upsertColl f t2 src dst n := by
  unfold upsertColl
  by_cases hres : reservedName n = true
  · rw [if_pos hres, if_pos hres]
  · rw [if_neg hres, if_neg hres]
    by_cases hc : f.upSrcCount n = true
    · rw [if_pos hc, if_pos hc]
    · rw [if_neg hc, if_neg hc]
      by_cases hlen : ((src.getColl n).length == 0) = true
      · rw [if_pos hlen, if_pos hlen]
      · rw [if_neg hlen, if_neg hlen]
        rw [ite_self, ite_self]

theorem incremental_upsert_thr (f : Failures) (t1 t2 : Nat) (src dst : Db) :
    incremental_upsert f t1 src dst = incremental_upsert f t2 src dst := by
  unfold incremental_upsert
  have hgen : ∀ (L : List String) (d : Db),
      L.foldl (fun d n => upsertColl f t1 src d n) d =
        L.foldl (fun d n => upsertColl f t2 src d n) d := by
    intro L
    induction L with
    | nil => intro d; rfl
    | cons n rest ih =>
      intro d
      rw [List.foldl_cons, List.foldl_cons, upsertColl_thr f t1 t2 src d n]
      exact ih _
  exact hgen src.collNames dst

theorem reconcilePair_thr (t1 t2 : Nat) (src dst : Db) (n : String) :
    reconcilePair noFail t1 src dst n = reconcilePair noFail t2 src dst n := by
  have hmat : ∀ t, reconcilePair noFail t src dst n =
      deleteLoopMat noFail n (Coll.ids (src.getColl n)) dst
        (Coll.ids (dst.getColl n)) := by
    intro t
    unfold reconcilePair
    rw [if_neg (by simp)]
    split
    · rw [if_neg (by simp), if_neg (by simp)]
    · rw [if_neg (by simp)]
      exact deleteLoopStream_eq_mat (fun _ => rfl) (src.getColl n) _ dst
  rw [hmat t1, hmat t2]

theorem reconcilePairs_thr (t1 t2 : Nat) (src : Db) :
    ∀ (L : List String) (dst : Db),
      reconcilePairs noFail t1 src dst L = reconcilePairs noFail t2 src dst L := by
  intro L
  induction L with
  | nil => intro dst; rfl
  | cons n rest ih =>
    intro dst
    simp only [reconcilePairs]
    rw [reconcilePair_thr t1 t2 src dst n]
    rcases hp : reconcilePair noFail t2 src dst n with d | d
    · rfl
    · exact ih d

theorem reconcile_deletions_thr (t1 t2 : Nat) (src dst : Db) :
    reconcile_deletions noFail t1 src dst = reconcile_deletions noFail t2 src dst := by
  unfold reconcile_deletions
  exact reconcilePairs_thr t1 t2 src (pairList src dst) _

theorem syncOne_thr (t1 t2 : Nat) (src dst : Db) :
    syncOne noFail t1 src dst = syncOne noFail t2 src dst := by
  show reconcile_deletions noFail t1 src (incremental_upsert noFail t1 src dst) =
    reconcile_deletions noFail t2 src (incremental_upsert noFail t2 src dst)
  rw [incremental_upsert_thr noFail t1 t2 src dst]
  exact reconcile_deletions_thr t1 t2 src _

/-! ### Reserved source collections are never read -/

theorem getColl_stripReserved {n : String} (hres : reservedName n = false) :
    ∀ db : Db, (stripReserved db).getColl n = db.getColl n := by
  intro db
  unfold stripReserved
  induction db with
  | nil => rfl
  | cons e rest ih =>
    rw [List.filter_cons]
    by_cases he : (!(reservedName e.1)) = true
    · rw [if_pos he]
      by_cases hen : e.1 = n
      · rw [Db.getColl_cons_self hen, Db.getColl_cons_self hen]
      · rw [Db.getColl_cons_ne hen, Db.getColl_cons_ne hen]
        exact ih
    · rw [if_neg he]
      have hee : reservedName e.1 = true := by
        rcases hb : reservedName e.1 with _ | _
        · rw [hb] at he
          simp at he
        · rfl
      have hen : e.1 ≠ n := fun hh => by
        rw [hh, hres] at hee
        cases hee
      rw [Db.getColl_cons_ne hen]
      exact ih

theorem collNames_stripReserved (db : Db) :
    (stripReserved db).collNames =
      db.collNames.filter (fun c => !(reservedName c)) := by
  unfold stripReserved
  induction db with
  | nil => rfl
  | cons e rest ih =>
    rw [List.filter_cons]
    have hcons : Db.collNames (e :: rest) = e.1 :: Db.collNames rest := rfl
    rw [hcons, List.filter_cons]
    rcases he : (!(reservedName e.1)) with _ | _
    · simp only [Bool.false_eq_true, if_false]
      exact ih
    · simp only [if_true]
      have hcons2 : Db.collNames (e :: List.filter (fun e => !(reservedName e.1)) rest) =
          e.1 :: Db.collNames (List.filter (fun e => !(reservedName e.1)) rest) := rfl
      rw [hcons2, ih]

theorem nonReserved_stripReserved (db : Db) :
    nonReserved (stripReserved db) = nonReserved db := by
  unfold nonReserved
  rw [collNames_stripReserved, List.filter_filter]
  apply List.filter_congr
  intro a _
  exact Bool.and_self _

theorem upsertColl_stripReserved (f : Failures) (thr : Nat) (src dst : Db)
    (n : String) :
    upsertColl f thr (stripReserved src) dst n = upsertColl f thr src dst n := by
  by_cases hres : reservedName n = true
  · rw [upsertColl_reserved hres, upsertColl_reserved hres]
  · have hres' := Bool.eq_false_iff.mpr hres
    unfold upsertColl
    rw [getColl_stripReserved hres' src]

theorem foldUpsert_skip_reserved (f : Failures) (thr : Nat) (src : Db) :
    ∀ (L : List String) (d : Db),
      L.foldl (fun d n => upsertColl f thr src d n) d =
        (L.filter (fun c => !(reservedName c))).foldl
          (fun d n => upsertColl f thr src d n) d := by
  intro L
  induction L with
  | nil => intro d; rfl
  | cons n rest ih =>
    intro d
    rw [List.foldl_cons, List.filter_cons]
    by_cases hres : reservedName n = true
    · have hcond : ¬((!(reservedName n)) = true) := by
        rw [hres]
        exact Bool.false_ne_true
      rw [if_neg hcond, upsertColl_reserved hres]
      exact ih d
    · have hres' : reservedName n = false := Bool.eq_false_iff.mpr hres
      have hcond : (!(reservedName n)) = true := by rw [hres']; rfl
      rw [if_pos hcond, List.foldl_cons]
      exact ih _

theorem incremental_upsert_stripReserved (f : Failures) (thr : Nat) (src dst : Db) :
    incremental_upsert f thr (stripReserved src) dst =
      incremental_upsert f thr src dst := by
  have hList : (stripReserved src).collNames.filter (fun c => !(reservedName c)) =
      src.collNames.filter (fun c => !(reservedName c)) := by
    rw [collNames_stripReserved, List.filter_filter]
    apply List.filter_congr
    intro a _
    exact Bool.and_self _
  have hfold : ∀ (L : List String) (d : Db),
      L.foldl (fun d n => upsertColl f thr (stripReserved src) d n) d =
        L.foldl (fun d n => upsertColl f thr src d n) d := by
    intro L
    induction L with
    | nil => intro d; rfl
    | cons n rest ih =>
      intro d
      rw [List.foldl_cons, List.foldl_cons, upsertColl_stripReserved f thr src d n]
      exact ih _
  show (stripReserved src).collNames.foldl
      (fun d n => upsertColl f thr (stripReserved src) d n) dst =
    src.collNames.foldl (fun d n => upsertColl f thr src d n) dst
  rw [foldUpsert_skip_reserved f thr (stripReserved src) (stripReserved src).collNames dst,
    hList, hfold, ← foldUpsert_skip_reserved f thr src src.collNames dst]

theorem reconcilePair_stripReserved (f : Failures) (thr : Nat) (src dst : Db)
    {n : String} (hres : reservedName n = false) :
    reconcilePair f thr (stripReserved src) dst n = reconcilePair f thr src dst n := by
  unfold reconcilePair
  rw [getColl_stripReserved hres src]

theorem reconcilePairs_stripReserved (f : Failures) (thr : Nat) (src : Db) :
    ∀ (L : List String) (dst : Db), (∀ n ∈ L, reservedName n = false) →
      reconcilePairs f thr (stripReserved src) dst L =
        reconcilePairs f thr src dst L := by
  intro L
  induction L with
  | nil => intro dst _; rfl
  | cons n rest ih =>
    intro dst h
    simp only [reconcilePairs]
    rw [reconcilePair_stripReserved f thr src dst (h n (List.mem_cons_self n rest))]
    rcases hp : reconcilePair f thr src dst n with d | d
    · rfl
    · exact ih d (fun p hp => h p (List.mem_cons_of_mem n hp))

theorem reconcile_deletions_stripReserved (f : Failures) (thr : Nat) (src dst : Db) :
    reconcile_deletions f thr (stripReserved src) dst =
      reconcile_deletions f thr src dst := by
  unfold reconcile_deletions
  have hnr := nonReserved_stripReserved src
  have hdl : dropList (stripReserved src) dst = dropList src dst := by
    unfold dropList
    rw [hnr]
  have hpl : pairList (stripReserved src) dst = pairList src dst := by
    unfold pairList
    rw [hnr]
  rw [hdl, hpl]
  exact reconcilePairs_stripReserved f thr src (pairList src dst) _
    (fun n hn => (mem_pairList.mp hn).2.1)

theorem syncOne_stripReserved (f : Failures) (thr : Nat) (src dst : Db) :
    syncOne f thr (stripReserved src) dst = syncOne f thr src dst := by
  show reconcile_deletions f thr (stripReserved src)
      (incremental_upsert f thr (stripReserved src) dst) =
    reconcile_deletions f thr src (incremental_upsert f thr src dst)
  rw [incremental_upsert_stripReserved, reconcile_deletions_stripReserved]

/-! ### Claim theorems -/

/-- C1, counterexample: the claim quantifies over every (collection, id) of the
source, but a document inside a reserved `system.` source collection is never
copied: after a full run over one empty destination, the destination still
lacks the document the source holds at (system.idx, 1). -/
theorem C1_counterexample :
    (srcSysDoc.getColl "system.idx").contentAt 1 = some 5 ∧
    mainSync noFail 200000 srcSysDoc [([] : Db)] = [([] : Db)] ∧
    Coll.contentAt
      (((mainSync noFail 200000 srcSysDoc [([] : Db)]).getD 0 []).getColl "system.idx") 1 =
      none := by
  decide

/-- C1, amended: after one full failure-free run with the source quiescent,
for every (collection, id) present in a NON-RESERVED source collection, every
destination database's collection of the same name contains a document at that
id whose content is identical to the source's document. -/
theorem C1_amended_convergence {thr : Nat} {src : Db} {dsts : List Db}
    (hsrc : src.WF) (hdsts : ∀ d ∈ dsts, d.WF) {n : String}
    (hres : reservedName n = false) {i : DocId} {v : Payload}
    (hsv : (src.getColl n).contentAt i = some v) :
    ∀ d' ∈ mainSync noFail thr src dsts, Coll.contentAt (d'.getColl n) i = some v := by
  intro d' hd'
  unfold mainSync at hd'
  obtain ⟨d, hd, rfl⟩ := List.mem_map.mp hd'
  exact syncOne_contentAt hsrc (hdsts d hd) hres hsv

/-- Witness for the amended C1 at a concrete fixture. -/
theorem C1_witness :
    Coll.contentAt ((syncOne noFail 5 srcOrders ([] : Db)).getColl "orders") 1 =
      some 10 :=
  @C1_amended_convergence 5 srcOrders [([] : Db)] (by decide) (by decide) "orders"
    (by decide) 1 10 (by decide) (syncOne noFail 5 srcOrders ([] : Db)) (by decide)

/-- C2, counterexample: the claim quantifies over every destination
(collection, id) absent from the source, but a reserved `system.` destination
collection is never reconciled: its document survives a full run although the
source lacks it. -/
theorem C2_counterexample :
    (dstSysDoc.getColl "system.idx").hasId 7 = true ∧
    (Db.getColl ([] : Db) "system.idx").hasId 7 = false ∧
    mainSync noFail 200000 ([] : Db) [dstSysDoc] = [dstSysDoc] ∧
    Coll.hasId
      (((mainSync noFail 200000 ([] : Db) [dstSysDoc]).getD 0 []).getColl "system.idx") 7 =
      true := by
  decide

/-- C2, amended: after one full failure-free run with the source quiescent,
every (collection, id) of a NON-RESERVED destination collection that is absent
from the source is absent from that destination, and every non-reserved
destination collection whose name does not occur in the source is entirely
removed. -/
theorem C2_amended_deletion {thr : Nat} {src : Db} {dsts : List Db}
    (hdsts : ∀ d ∈ dsts, d.WF) {n : String} (hres : reservedName n = false) :
    ∀ d' ∈ mainSync noFail thr src dsts,
      (∀ i, (src.getColl n).hasId i = false → Coll.hasId (d'.getColl n) i = false) ∧
      (src.hasColl n = false → d'.hasColl n = false) := by
  intro d' hd'
  unfold mainSync at hd'
  obtain ⟨d, hd, rfl⟩ := List.mem_map.mp hd'
  exact ⟨fun i hno => syncOne_hasId_false (hdsts d hd) hres hno,
    fun hno => syncOne_hasColl_false (hdsts d hd) hres hno⟩

/-- Witness for the amended C2 at a concrete fixture: the stale document
(orders, 4) is deleted and the destination-only collection `legacy` is
dropped. -/
theorem C2_witness :
    Coll.hasId ((syncOne noFail 5 srcOrders dstMixed).getColl "orders") 4 = false ∧
    (syncOne noFail 5 srcOrders dstMixed).hasColl "legacy" = false := by
  have h1 := @C2_amended_deletion 5 srcOrders [dstMixed] (by decide) "orders"
    (by decide) (syncOne noFail 5 srcOrders dstMixed) (by decide)
  have h2 := @C2_amended_deletion 5 srcOrders [dstMixed] (by decide) "legacy"
    (by decide) (syncOne noFail 5 srcOrders dstMixed) (by decide)
  exact ⟨h1.1 4 (by decide), h2.2 (by decide)⟩

/-- C3: running the full failure-free sync a second time against an unchanged
source and the destination states produced by the first run is the identity:
the second run produces no observable change to any destination's contents. -/
theorem C3_idempotent {thr : Nat} {src : Db} {dsts : List Db}
    (hsrc : src.WF) (hdsts : ∀ d ∈ dsts, d.WF) :
    mainSync noFail thr src (mainSync noFail thr src dsts) =
      mainSync noFail thr src dsts := by
  unfold mainSync
  rw [List.map_map]
  apply List.map_congr_left
  intro d hd
  exact syncOne_idem hsrc (hdsts d hd)

/-- Witness for C3 at a concrete fixture. -/
theorem C3_witness :
    mainSync noFail 5 srcOrders (mainSync noFail 5 srcOrders [dstMixed]) =
      mainSync noFail 5 srcOrders [dstMixed] :=
  @C3_idempotent 5 srcOrders [dstMixed] (by decide) (by decide)

/-- C4: for every fixed source and destination state, the configured threshold
never changes the final destination state of a failure-free run: in particular
forcing MATERIALIZE everywhere (a threshold at least every count) and forcing
STREAM everywhere (threshold 0) yield identical results, at document counts
below and above any boundary. -/
theorem C4_strategy_equivalence (t1 t2 : Nat) (src : Db) (dsts : List Db) :
    mainSync noFail t1 src dsts = mainSync noFail t2 src dsts := by
  unfold mainSync
  apply List.map_congr_left
  intro d _
  exact syncOne_thr t1 t2 src d

/-- C5, counterexample: a destination read error on pair `a` does not merely
skip pair `a`: it escapes the per-pair count handler, is caught by the
function-level handler, and abandons pair `b` as well, leaving the stale
document (b, 4) that a failure-free run deletes. -/
theorem C5_counterexample :
    Coll.hasId ((syncOne failFindA 5 srcPairAB dstPairAB).getColl "b") 4 = true ∧
    Coll.hasId ((syncOne noFail 5 srcPairAB dstPairAB).getColl "b") 4 = false := by
  decide

/-- C5, amended: a COUNT error on a collection pair is logged and exactly that
pair is skipped for the run, while reconciliation of the remaining pairs of the
same destination proceeds as in a failure-free run; a read error during the
document scan instead aborts document-level reconciliation of the remaining
pairs for that destination. -/
theorem C5_amended_skip {f : Failures} {c₀ : String}
    (hdropf : ∀ n, f.rcDrop n = false)
    (hsf : ∀ n, f.rcSrcFind n = false) (hdf : ∀ n, f.rcDstFind n = false)
    (hex : ∀ n i, f.rcExist n i = false) (hdel : ∀ n i, f.rcDelete n i = false)
    (hcnt : ∀ n, n ≠ c₀ → f.rcSrcCount n = false ∧ f.rcDstCount n = false)
    (hskip : (f.rcSrcCount c₀ || f.rcDstCount c₀) = true)
    (thr : Nat) (src : Db) {dst : Db} (hdst : dst.WF)
    (hres0 : reservedName c₀ = false) (hs0 : src.hasColl c₀ = true)
    (hd0 : dst.hasColl c₀ = true) :
    (∀ n, n ≠ c₀ →
      (reconcile_deletions f thr src dst).getColl n =
        (reconcile_deletions noFail thr src dst).getColl n) ∧
    (reconcile_deletions f thr src dst).getColl c₀ = dst.getColl c₀ := by
  have hpairf : ∀ n ∈ pairList src dst, (f.rcSrcCount n || f.rcDstCount n) = true ∨
      (f.rcSrcCount n = false ∧ f.rcDstCount n = false ∧ f.rcSrcFind n = false ∧
       f.rcDstFind n = false ∧ (∀ i, f.rcExist n i = false) ∧
       (∀ i, f.rcDelete n i = false)) := by
    intro n _
    by_cases hn : n = c₀
    · rw [hn]
      exact Or.inl hskip
    · exact Or.inr ⟨(hcnt n hn).1, (hcnt n hn).2, hsf n, hdf n, hex n, hdel n⟩
  obtain ⟨hpairF, hdropF, hframeF, _⟩ :=
    @reconcile_deletions_char f thr src dst hdst (fun n _ => hdropf n) hpairf
  obtain ⟨hpairN, hdropN, hframeN, _⟩ :=
    @reconcile_deletions_char noFail thr src dst hdst (fun _ _ => rfl)
      (noFail_pairFlags src dst)
  have hp0 : c₀ ∈ pairList src dst :=
    mem_pairList.mpr ⟨Db.hasColl_iff.mp hd0, hres0, Db.hasColl_iff.mp hs0⟩
  constructor
  · intro n hn
    by_cases hp : n ∈ pairList src dst
    · have hor : (f.rcSrcCount n || f.rcDstCount n) = false := by
        rw [(hcnt n hn).1, (hcnt n hn).2]
        rfl
      rw [(hpairF n hp).2.1 hor, (hpairN n hp).2.1 rfl]
    · by_cases hd : n ∈ dropList src dst
      · rw [(hdropF n hd).2, (hdropN n hd).2]
      · rw [(hframeF n hd hp).1, (hframeN n hd hp).1]
  · exact (hpairF c₀ hp0).1 hskip

/-- Witness for the amended C5 at a concrete fixture: a count failure on pair
`b` leaves pair `a` reconciled exactly as in the failure-free run and pair `b`
untouched. -/
theorem C5_witness :
    (reconcile_deletions failCountB 5 srcPairAB dstPairAB).getColl "a" =
      (reconcile_deletions noFail 5 srcPairAB dstPairAB).getColl "a" ∧
    (reconcile_deletions failCountB 5 srcPairAB dstPairAB).getColl "b" =
      dstPairAB.getColl "b" := by
  have h := @C5_amended_skip failCountB "b" (fun _ => rfl) (fun _ => rfl)
    (fun _ => rfl) (fun _ _ => rfl) (fun _ _ => rfl)
    (fun n hn => ⟨beq_eq_false_iff_ne.mpr hn, rfl⟩) (by decide) 5 srcPairAB
    dstPairAB (by decide) (by decide) (by decide) (by decide)
  exact ⟨h.1 "a" (by decide), h.2⟩

/-- C6: a collection name present in both the source and a destination whose
source collection holds zero documents is still reconciled document by
document: all destination documents in it are deleted, while the collection
itself is not dropped. -/
theorem C6_empty_source {thr : Nat} {src dst : Db} (hsrc : src.WF) (hdst : dst.WF)
    {n : String} (hres : reservedName n = false) (hs : src.hasColl n = true)
    (hempty : src.getColl n = []) (hd : dst.hasColl n = true) :
    (syncOne noFail thr src dst).getColl n = [] ∧
    (syncOne noFail thr src dst).hasColl n = true :=
  syncOne_emptySource hsrc hdst hres hs hempty hd

/-- Witness for C6 at a concrete fixture: both destination documents of
`orders` are deleted when the source `orders` collection exists but is empty. -/
theorem C6_witness :
    (syncOne noFail 5 srcEmptyOrders dstTwoOrders).getColl "orders" = [] ∧
    (syncOne noFail 5 srcEmptyOrders dstTwoOrders).hasColl "orders" = true :=
  @C6_empty_source 5 srcEmptyOrders dstTwoOrders (by decide) (by decide) "orders"
    (by decide) (by decide) (by decide) (by decide)

/-- C7: a collection whose name carries the reserved `system.` prefix is never
touched by any run, failing or not: its destination content and existence are
unchanged, and removing every reserved collection from the source does not
change the run's outcome at all (reserved source collections are never read). -/
theorem C7_reserved_exclusion (f : Failures) (thr : Nat) (src dst : Db)
    {n : String} (h : reservedName n = true) :
    (syncOne f thr src dst).getColl n = dst.getColl n ∧
    (syncOne f thr src dst).hasColl n = dst.hasColl n ∧
    syncOne f thr (stripReserved src) dst = syncOne f thr src dst := by
  obtain ⟨h1, h2⟩ := syncOne_reserved f thr src dst h
  exact ⟨h1, h2, syncOne_stripReserved f thr src dst⟩

/-- Witness for C7 at a concrete fixture. -/
theorem C7_witness :
    (syncOne noFail 5 srcSysDoc dstSysDoc).getColl "system.idx" =
      dstSysDoc.getColl "system.idx" ∧
    (syncOne noFail 5 srcSysDoc dstSysDoc).hasColl "system.idx" =
      dstSysDoc.hasColl "system.idx" ∧
    syncOne noFail 5 (stripReserved srcSysDoc) dstSysDoc =
      syncOne noFail 5 srcSysDoc dstSysDoc :=
  @C7_reserved_exclusion noFail 5 srcSysDoc dstSysDoc "system.idx" (by decide)

/-- C8: in the upsert phase, store errors confined to one collection leave
every other collection of the same destination exactly as a failure-free run
leaves it: no single collection's failure prevents the remaining collections
from being processed. -/
theorem C8_failure_isolation {f : Failures} {c₀ : String}
    (hflags : ∀ n, n ≠ c₀ → f.upSrcCount n = false ∧ f.upSrcFind n = false ∧
      ∀ i, f.upWrite n i = false)
    (thr : Nat) {src : Db} (hsrc : src.WF) (dst : Db) :
    ∀ n, n ≠ c₀ →
      (incremental_upsert f thr src dst).getColl n =
        (incremental_upsert noFail thr src dst).getColl n ∧
      (incremental_upsert f thr src dst).hasColl n =
        (incremental_upsert noFail thr src dst).hasColl n := by
  intro n hn
  obtain ⟨h1, h2, h3⟩ := hflags n hn
  constructor
  · rw [@incremental_upsert_getColl f n h1 h2 h3 thr src hsrc.1 dst,
      @incremental_upsert_getColl noFail n rfl rfl (fun _ => rfl) thr src hsrc.1 dst]
  · by_cases hres : reservedName n = true
    · rw [(incremental_upsert_reserved f thr src dst hres).2,
        (incremental_upsert_reserved noFail thr src dst hres).2]
    · have hres' := Bool.eq_false_iff.mpr hres
      by_cases hlen : (src.getColl n).length = 0
      · rw [@incremental_upsert_hasColl_eq f n h1 h2 h3 thr src hsrc.1 dst (Or.inr hlen),
          @incremental_upsert_hasColl_eq noFail n rfl rfl (fun _ => rfl) thr src hsrc.1
            dst (Or.inr hlen)]
      · rw [@incremental_upsert_hasColl_pos f n h1 h2 h3 thr src hsrc.1 dst hres' hlen,
          @incremental_upsert_hasColl_pos noFail n rfl rfl (fun _ => rfl) thr src hsrc.1
            dst hres' hlen]

/-- Witness for C8 at a concrete fixture: a read failure on collection `b`
leaves collection `a` exactly as in the failure-free run. -/
theorem C8_witness :
    (incremental_upsert failUpB 5 srcPairAB dstPairAB).getColl "a" =
      (incremental_upsert noFail 5 srcPairAB dstPairAB).getColl "a" := by
  have h := @C8_failure_isolation failUpB "b"
    (fun n hn => ⟨rfl, beq_eq_false_iff_ne.mpr hn, fun _ => rfl⟩) 5 srcPairAB
    (by decide) dstPairAB
  exact (h "a" (by decide)).1

/-- C9: the strategy decision is a pure function of the source document count
and the configured threshold: MATERIALIZE exactly when the count is at most
the threshold, STREAM otherwise; the inlined branch test `useMaterialize` both
engines evaluate (see `upsertColl` and `reconcilePair`) agrees with it, and
the reconciliation engine dispatches its two deletion loops by exactly this
decision. -/
theorem C9_strategy_selector (cnt thr : Nat) (_hpos : 0 < thr) :
    (chooseStrategy cnt thr = Strategy.MATERIALIZE ↔ cnt ≤ thr) ∧
    (chooseStrategy cnt thr = Strategy.STREAM ↔ ¬(cnt ≤ thr)) ∧
    (useMaterialize cnt thr = true ↔ chooseStrategy cnt thr = Strategy.MATERIALIZE) ∧
    (∀ (src dst : Db) (n : String),
      reconcilePair noFail thr src dst n =
        if chooseStrategy (src.getColl n).length thr = Strategy.MATERIALIZE
        then deleteLoopMat noFail n (Coll.ids (src.getColl n)) dst
          (Coll.ids (dst.getColl n))
        else deleteLoopStream noFail n (src.getColl n) dst
          (Coll.ids (dst.getColl n))) := by
  refine ⟨?_, ?_, ?_, ?_⟩
  · unfold chooseStrategy useMaterialize
    by_cases h : cnt ≤ thr <;> simp [h]
  · unfold chooseStrategy useMaterialize
    by_cases h : cnt ≤ thr <;> simp [h]
  · unfold chooseStrategy useMaterialize
    by_cases h : cnt ≤ thr <;> simp [h]
  · intro src dst n
    unfold reconcilePair chooseStrategy
    rw [if_neg (by simp)]
    by_cases hc : useMaterialize (src.getColl n).length thr = true
    · rw [if_pos hc, if_pos hc, if_neg (by simp), if_neg (by simp), if_pos rfl]
    · rw [if_neg hc, if_neg hc, if_neg (by simp),
        if_neg (by intro hh; exact Strategy.noConfusion hh)]

/-- Witness for C9 at concrete counts on both sides of the boundary. -/
theorem C9_witness :
    ((chooseStrategy 3 5 = Strategy.MATERIALIZE ↔ 3 ≤ 5) ∧
      (chooseStrategy 3 5 = Strategy.STREAM ↔ ¬(3 ≤ 5)) ∧
      (useMaterialize 3 5 = true ↔ chooseStrategy 3 5 = Strategy.MATERIALIZE) ∧
      (∀ (src dst : Db) (n : String),
        reconcilePair noFail 5 src dst n =
          if chooseStrategy (src.getColl n).length 5 = Strategy.MATERIALIZE
          then deleteLoopMat noFail n (Coll.ids (src.getColl n)) dst
            (Coll.ids (dst.getColl n))
          else deleteLoopStream noFail n (src.getColl n) dst
            (Coll.ids (dst.getColl n)))) :=
  C9_strategy_selector 3 5 (by decide)

/-- C10: the upsert phase never removes data from a destination, even in a
failing run: every destination collection still exists afterwards, every
(collection, id) present before is still present (its content possibly
replaced), and no destination collection is dropped; deletions and drops
happen only in the reconciliation phase. -/
theorem C10_upsert_preserves (f : Failures) (thr : Nat) (src dst : Db) :
    (∀ n, dst.hasColl n = true → (incremental_upsert f thr src dst).hasColl n = true) ∧
    (∀ n i, Coll.hasId (dst.getColl n) i = true →
      Coll.hasId ((incremental_upsert f thr src dst).getColl n) i = true) := by
  constructor
  · intro n h
    exact foldUpsert_hasColl_mono f thr src src.collNames h
  · intro n i h
    exact foldUpsert_hasId_mono f thr src src.collNames h

/-- Witness for C10 at a concrete fixture: the stale document (orders, 4) and
the destination-only collection `legacy` both survive the upsert phase. -/
theorem C10_witness :
    (incremental_upsert noFail 5 srcOrders dstMixed).hasColl "legacy" = true ∧
    Coll.hasId ((incremental_upsert noFail 5 srcOrders dstMixed).getColl "orders") 4 =
      true :=
  ⟨(C10_upsert_preserves noFail 5 srcOrders dstMixed).1 "legacy" (by decide),
   (C10_upsert_preserves noFail 5 srcOrders dstMixed).2 "orders" 4 (by decide)⟩

end MongoSync
